import Mathlib

/-!
Shallow embedding of `crates/bevy_ecs/src/observer/entity_observer.rs`:
the `ObservedBy` back-reference component, its `on_remove` hook (the
despawn-cascade), its clone behavior, `EntityClonerBuilder::add_observers`,
and the deferred closure of `component_clone_observed_by` (the
clone-propagation), together with the slice of world state they touch.
-/

set_option autoImplicit false

namespace BevyObserver

/-- Entities are opaque stable identities; modelled as naturals. -/
abbrev Entity := Nat

/-- Event kinds and component kinds are `ComponentId`s in the host runtime;
modelled as naturals. -/
abbrev Key := Nat

/-- Lookup in an association-list map with `Nat` keys, standing for the hash
maps of the host runtime (`EntityHashMap`, caches keyed by `ComponentId`). -/
def mget {β : Type} (m : List (Nat × β)) (k : Nat) : Option β :=
  match m with
  | [] => none
  | (k₀, v) :: t => if k₀ = k then some v else mget t k

/-- Insertion: replaces the value of an existing key in place, appends
otherwise (the `insert` of the host's hash maps, up to order). -/
def mput {β : Type} (m : List (Nat × β)) (k : Nat) (v : β) : List (Nat × β) :=
  match m with
  | [] => [(k, v)]
  | (k₀, v₀) :: t => if k₀ = k then (k, v) :: t else (k₀, v₀) :: mput t k v

/-- Key removal (used when the host erases a despawned entity's components). -/
def mdel {β : Type} (m : List (Nat × β)) (k : Nat) : List (Nat × β) :=
  match m with
  | [] => []
  | (k₀, v₀) :: t => if k₀ = k then mdel t k else (k₀, v₀) :: mdel t k

/-- The forward descriptor of an observer (`ObserverDescriptor`): event kinds
reacted to, component kinds scoped to, and watched entities. -/
structure ObserverDescriptor where
  events : List Key
  components : List Key
  entities : List Entity
  deriving DecidableEq, Repr

/-- The `Observer` component carried by an observer entity: its descriptor
plus the count of watched entities already despawned
(`despawned_watched_entities`). -/
structure ObserverState where
  descriptor : ObserverDescriptor
  despawned_watched_entities : Nat
  deriving DecidableEq, Repr

/-- The set of observers registered under one watched entity in the global
index: stands for the host's map from observer entity to its runner; only
which value is stored matters here. -/
abbrev ObserverSet := List Entity

/-- Component-scoped part of one event kind's index bucket
(`CachedComponentObservers`). -/
structure ComponentObservers where
  entity_component_observers : List (Entity × ObserverSet)
  deriving DecidableEq, Repr

/-- Global index bucket for one event kind (`CachedObservers`). -/
structure CachedObservers where
  entity_observers : List (Entity × ObserverSet)
  component_observers : List (Key × ComponentObservers)
  deriving DecidableEq, Repr

/-- The slice of world state these two algorithms read and write: live
entities, the `ObservedBy` store, the `Observer` store, the global index
(`world.observers`), and the deferred command queue, which here only ever
receives despawn commands (recorded by despawned entity id). -/
structure World where
  alive : List Entity
  observed_by : List (Entity × List Entity)
  observer : List (Entity × ObserverState)
  observers : List (Key × CachedObservers)
  commands : List Entity
  deriving DecidableEq, Repr

/-- One iteration of the loop in `ObservedBy::on_remove`: process one observer
entity `e` taken from the back-reference list. A dead entity
(`get_entity_mut` fails) or a live entity without an `Observer` component is
skipped (`continue`); otherwise the despawn counter is incremented and, when
it reaches the descriptor's entity count, a despawn of `e` is enqueued. -/
def onRemoveStep (w : World) (e : Entity) : World :=
  if e ∈ w.alive then
    match mget w.observer e with
    | none => w
    | some st =>
      let st₁ : ObserverState :=
        { st with despawned_watched_entities := st.despawned_watched_entities + 1 }
      let w₁ : World := { w with observer := mput w.observer e st₁ }
      if st₁.descriptor.entities.length = st₁.despawned_watched_entities then
        { w₁ with commands := w₁.commands ++ [e] }
      else w₁
  else w

/-- `ObservedBy::on_remove`: `mem::take` the back-reference list of `entity`
(leaving an empty list in place), then process every listed observer. `none`
models the panic of the `unwrap` on a missing `ObservedBy` component. -/
def observedByOnRemove (w : World) (entity : Entity) : Option World :=
  match mget w.observed_by entity with
  | none => none
  | some l =>
    some (l.foldl onRemoveStep { w with observed_by := mput w.observed_by entity [] })

/-- Modelled from the spec: the host runtime's entity removal (an external
collaborator, §6) erases the entity and its components; descriptor entries
and index entries elsewhere that mention the entity are untouched. -/
def removeEntityRaw (w : World) (e : Entity) : World :=
  { w with
    alive := w.alive.filter (fun x => decide (x ≠ e))
    observed_by := mdel w.observed_by e
    observer := mdel w.observer e }

/-- Despawn of a watched entity: the `ObservedBy` removal hook fires first
(when the component is present), then the host removes the entity. -/
def despawnEntity (w : World) (e : Entity) : Option World :=
  match mget w.observed_by e with
  | some _ => (observedByOnRemove w e).map (fun w₁ => removeEntityRaw w₁ e)
  | none => some (removeEntityRaw w e)

/-- A sequence of watched-entity despawns, in order. -/
def removeAll (w : World) (order : List Entity) : Option World :=
  order.foldl (fun ow e => ow.bind (fun w₁ => despawnEntity w₁ e)) (some w)

/-- `Observers::get_observers_mut`: the host's bucket accessor for an event
kind; yields an empty bucket when none is cached yet. -/
def getObserversD (w : World) (k : Key) : CachedObservers :=
  (mget w.observers k).getD ⟨[], []⟩

/-- Inner loop of the clone closure for a component-scoped observer: for one
component kind `c`, if the index has a bucket for `c` and it maps `source`,
insert the same set under `target`; a missing bucket is skipped. -/
def cloneComponentStep (source target : Entity)
    (co : List (Key × ComponentObservers)) (c : Key) :
    List (Key × ComponentObservers) :=
  match mget co c with
  | none => co
  | some cobs =>
    match mget cobs.entity_component_observers source with
    | none => co
    | some m => mput co c ⟨mput cobs.entity_component_observers target m⟩

/-- Per-event-kind body of the clone closure: for a whole-entity observer
(empty `components`), copy the `entity_observers` entry of `source` to
`target` when present; for a component-scoped observer, do the same in each
scoped component's secondary map. -/
def cloneEventStep (source target : Entity) (components : List Key)
    (w : World) (event_type : Key) : World :=
  let obs := getObserversD w event_type
  let obs₁ :=
    if components.isEmpty then
      match mget obs.entity_observers source with
      | some m => { obs with entity_observers := mput obs.entity_observers target m }
      | none => obs
    else
      { obs with component_observers :=
          components.foldl (cloneComponentStep source target) obs.component_observers }
  { w with observers := mput w.observers event_type obs₁ }

/-- One iteration of the observer loop in `component_clone_observed_by`'s
deferred closure: push `target` onto the observer's watched-entity list, then
update the global index for each of its event kinds. `none` models the
`expect` panic on a missing `Observer` component. -/
def cloneObserverStep (source target : Entity) (w : World) (oe : Entity) :
    Option World :=
  match mget w.observer oe with
  | none => none
  | some st =>
    let st₁ : ObserverState :=
      { st with descriptor :=
          { st.descriptor with entities := st.descriptor.entities ++ [target] } }
    let w₁ : World := { w with observer := mput w.observer oe st₁ }
    some (st.descriptor.events.foldl
      (cloneEventStep source target st.descriptor.components) w₁)

/-- The observer loop of the clone closure, threading the possibility of a
panic (`none`) through each iteration. -/
def cloneFold (source target : Entity) (l : List Entity) (w : World) :
    Option World :=
  l.foldl (fun ow oe => ow.bind (fun w₁ => cloneObserverStep source target w₁ oe))
    (some w)

/-- The deferred closure queued by `component_clone_observed_by`: read the
source's back-reference (`expect` panic if absent, modelled as `none`),
insert a copy of it as the target's back-reference, then process every listed
observer. -/
def componentCloneObservedBy (w : World) (source target : Entity) :
    Option World :=
  match mget w.observed_by source with
  | none => none
  | some observed_by =>
    cloneFold source target observed_by
      { w with observed_by := mput w.observed_by target observed_by }

/-- How the clone pipeline treats the `ObservedBy` component. -/
inductive CloneBehavior where
  | ignoreComp
  | custom
  deriving DecidableEq, Repr

/-- `ObservedBy::clone_behavior`: the default is `Ignore`. -/
def observedByCloneBehavior : CloneBehavior := .ignoreComp

/-- `EntityClonerBuilder::add_observers`: `true` overrides `ObservedBy`'s
clone behavior with the custom handler, `false` removes the override. -/
def addObservers (_ov : Option CloneBehavior) (b : Bool) : Option CloneBehavior :=
  if b then some CloneBehavior.custom else none

/-- Behavior the pipeline ends up using: the override when set, else
`ObservedBy::clone_behavior`'s default. -/
def effectiveCloneBehavior (ov : Option CloneBehavior) : CloneBehavior :=
  ov.getD observedByCloneBehavior

/-- Modelled from the spec: the external clone pipeline (§4.3 trigger)
consults the effective clone behavior for `ObservedBy`; `Ignore` copies
nothing, the custom handler queues the deferred closure above (run here
directly, it being the only deferred step of this operation). -/
def clonePipeline (ov : Option CloneBehavior) (w : World) (source target : Entity) :
    Option World :=
  match effectiveCloneBehavior ov with
  | CloneBehavior.ignoreComp => some w
  | CloneBehavior.custom => componentCloneObservedBy w source target

/-- `O ∈ E`'s back-reference list, as a boolean view. -/
def observedByHasB (w : World) (E O : Entity) : Bool :=
  match mget w.observed_by E with
  | some l => l.contains O
  | none => false

/-- `E ∈ O`'s descriptor's entity list, as a boolean view. -/
def watchesB (w : World) (O E : Entity) : Bool :=
  match mget w.observer O with
  | some st => st.descriptor.entities.contains E
  | none => false

/-- Bidirectional invariant (§3): among live entities, `O` appears in `E`'s
back-reference iff `E` appears in `O`'s descriptor's entity list. -/
def Bidir (w : World) : Prop :=
  ∀ E ∈ w.alive, ∀ O ∈ w.alive, observedByHasB w E O = watchesB w O E

/-- View of the global index: the observer set mapped to entity `x` for event
kind `k` in `entity_observers`. -/
def entObs (w : World) (k : Key) (x : Entity) : Option ObserverSet :=
  match mget w.observers k with
  | none => none
  | some b => mget b.entity_observers x

/-- View of the global index: the observer set mapped to entity `x` for event
kind `k`, component kind `c`, in `component_observers`. -/
def compObs (w : World) (k c : Key) (x : Entity) : Option ObserverSet :=
  match mget w.observers k with
  | none => none
  | some b =>
    match mget b.component_observers c with
    | none => none
    | some cb => mget cb.entity_component_observers x

instance decidableBidir (w : World) : Decidable (Bidir w) :=
  inferInstanceAs
    (Decidable (∀ E ∈ w.alive, ∀ O ∈ w.alive, observedByHasB w E O = watchesB w O E))

/-! ### Association-list map lemmas -/

theorem mget_mput_self {β : Type} (m : List (Nat × β)) (k : Nat) (v : β) :
    mget (mput m k v) k = some v := by
  induction m with
  | nil => simp [mget, mput]
  | cons p t ih =>
    obtain ⟨k₀, v₀⟩ := p
    by_cases h : k₀ = k <;> simp [mget, mput, h, ih]

theorem mget_mput_ne {β : Type} (m : List (Nat × β)) (k q : Nat) (v : β)
    (h : q ≠ k) : mget (mput m k v) q = mget m q := by
  induction m with
  | nil => simp [mget, mput, Ne.symm h]
  | cons p t ih =>
    obtain ⟨k₀, v₀⟩ := p
    by_cases h₀ : k₀ = k
    · subst h₀
      simp [mget, mput, Ne.symm h]
    · by_cases h₁ : k₀ = q
      · simp [mget, mput, h, h₁]
      · simp [mget, mput, h₀, h₁, ih]

theorem mget_mput {β : Type} (m : List (Nat × β)) (k q : Nat) (v : β) :
    mget (mput m k v) q = if q = k then some v else mget m q := by
  by_cases h : q = k
  · subst h; simp [mget_mput_self]
  · simp [h, mget_mput_ne m k q v h]

theorem mget_mdel {β : Type} (m : List (Nat × β)) (k q : Nat) :
    mget (mdel m k) q = if q = k then none else mget m q := by
  induction m with
  | nil => simp [mget, mdel]
  | cons p t ih =>
    obtain ⟨k₀, v₀⟩ := p
    simp only [mdel, mget]
    by_cases h₀ : k₀ = k
    · simp only [if_pos h₀, ih]
      by_cases h₁ : q = k
      · simp [h₁]
      · have h₂ : ¬k₀ = q := by omega
        simp [h₁, h₂]
    · simp only [if_neg h₀, mget, ih]
      by_cases h₁ : k₀ = q
      · have h₂ : ¬q = k := by omega
        simp [h₁, h₂]
      · simp [h₁]

theorem mput_mput_self {β : Type} (m : List (Nat × β)) (k : Nat) (v v₁ : β) :
    mput (mput m k v) k v₁ = mput m k v₁ := by
  induction m with
  | nil => simp [mput]
  | cons p t ih =>
    obtain ⟨k₀, v₀⟩ := p
    by_cases h : k₀ = k <;> simp [mput, h, ih]

/-! ### Despawn-cascade step lemmas -/

theorem onRemoveStep_observed_by (w : World) (e : Entity) :
    (onRemoveStep w e).observed_by = w.observed_by := by
  unfold onRemoveStep
  split
  · split
    · rfl
    · dsimp only
      split <;> rfl
  · rfl

theorem onRemoveStep_alive (w : World) (e : Entity) :
    (onRemoveStep w e).alive = w.alive := by
  unfold onRemoveStep
  split
  · split
    · rfl
    · dsimp only
      split <;> rfl
  · rfl

theorem onRemoveStep_observers (w : World) (e : Entity) :
    (onRemoveStep w e).observers = w.observers := by
  unfold onRemoveStep
  split
  · split
    · rfl
    · dsimp only
      split <;> rfl
  · rfl

theorem onRemoveStep_dead (w : World) (e : Entity) (h : e ∉ w.alive) :
    onRemoveStep w e = w := by
  simp [onRemoveStep, h]

theorem onRemoveStep_noObserver (w : World) (e : Entity)
    (h : mget w.observer e = none) : onRemoveStep w e = w := by
  unfold onRemoveStep
  split
  · rw [h]
  · rfl

theorem onRemoveStep_get_self (w : World) (e : Entity) (st : ObserverState)
    (he : e ∈ w.alive) (hst : mget w.observer e = some st) :
    mget (onRemoveStep w e).observer e =
      some { st with despawned_watched_entities := st.despawned_watched_entities + 1 } := by
  unfold onRemoveStep
  rw [if_pos he, hst]
  dsimp only
  split <;> simp [mget_mput_self]

theorem onRemoveStep_get_ne (w : World) (e o : Entity) (h : o ≠ e) :
    mget (onRemoveStep w e).observer o = mget w.observer o := by
  unfold onRemoveStep
  split
  · split
    · rfl
    · dsimp only
      split <;> simp [mget_mput_ne _ _ _ _ h]
  · rfl

theorem onRemoveStep_commands_live (w : World) (e : Entity) (st : ObserverState)
    (he : e ∈ w.alive) (hst : mget w.observer e = some st) :
    (onRemoveStep w e).commands = w.commands ++
      (if st.descriptor.entities.length = st.despawned_watched_entities + 1
        then [e] else []) := by
  unfold onRemoveStep
  rw [if_pos he, hst]
  dsimp only
  split <;> simp_all

theorem onRemoveStep_commands_sub (w : World) (e : Entity) :
    ∃ t, (onRemoveStep w e).commands = w.commands ++ t ∧ ∀ x ∈ t, x = e := by
  unfold onRemoveStep
  split
  · split
    · exact ⟨[], by simp⟩
    · dsimp only
      split
      · exact ⟨[e], by simp⟩
      · exact ⟨[], by simp⟩
  · exact ⟨[], by simp⟩

theorem onRemoveStep_desc (w : World) (e o : Entity) :
    (mget (onRemoveStep w e).observer o).map (fun st => st.descriptor)
      = (mget w.observer o).map (fun st => st.descriptor) := by
  by_cases h : o = e
  · subst h
    by_cases he : o ∈ w.alive
    · cases hst : mget w.observer o with
      | none => rw [onRemoveStep_noObserver w o hst, hst]
      | some st => rw [onRemoveStep_get_self w o st he hst]; simp [hst]
    · rw [onRemoveStep_dead w o he]
  · rw [onRemoveStep_get_ne w e o h]

/-! ### Despawn-cascade fold lemmas -/

theorem foldOnRemove_observed_by (l : List Entity) (w : World) :
    (l.foldl onRemoveStep w).observed_by = w.observed_by := by
  induction l generalizing w with
  | nil => rfl
  | cons e t ih => rw [List.foldl_cons, ih, onRemoveStep_observed_by]

theorem foldOnRemove_alive (l : List Entity) (w : World) :
    (l.foldl onRemoveStep w).alive = w.alive := by
  induction l generalizing w with
  | nil => rfl
  | cons e t ih => rw [List.foldl_cons, ih, onRemoveStep_alive]

theorem foldOnRemove_observers (l : List Entity) (w : World) :
    (l.foldl onRemoveStep w).observers = w.observers := by
  induction l generalizing w with
  | nil => rfl
  | cons e t ih => rw [List.foldl_cons, ih, onRemoveStep_observers]

theorem foldOnRemove_desc (l : List Entity) (w : World) (o : Entity) :
    (mget (l.foldl onRemoveStep w).observer o).map (fun st => st.descriptor)
      = (mget w.observer o).map (fun st => st.descriptor) := by
  induction l generalizing w with
  | nil => rfl
  | cons e t ih => rw [List.foldl_cons, ih, onRemoveStep_desc]

theorem foldOnRemove_commands_sub (l : List Entity) (w : World) :
    ∃ t, (l.foldl onRemoveStep w).commands = w.commands ++ t ∧ ∀ x ∈ t, x ∈ l := by
  induction l generalizing w with
  | nil => exact ⟨[], by simp⟩
  | cons e t ih =>
    obtain ⟨t₁, h₁, hall₁⟩ := onRemoveStep_commands_sub w e
    obtain ⟨t₂, h₂, hall₂⟩ := ih (onRemoveStep w e)
    refine ⟨t₁ ++ t₂, ?_, ?_⟩
    · rw [List.foldl_cons, h₂, h₁, List.append_assoc]
    · intro x hx
      rcases List.mem_append.mp hx with hx | hx
      · exact List.mem_cons.mpr (Or.inl (hall₁ x hx))
      · exact List.mem_cons.mpr (Or.inr (hall₂ x hx))

theorem foldOnRemove_count_zero (l : List Entity) (w : World) (o : Entity)
    (h : l.count o = 0) :
    mget (l.foldl onRemoveStep w).observer o = mget w.observer o ∧
    (l.foldl onRemoveStep w).commands.count o = w.commands.count o := by
  induction l generalizing w with
  | nil => exact ⟨rfl, rfl⟩
  | cons e t ih =>
    rw [List.count_cons] at h
    by_cases hoe : o = e
    · subst hoe
      simp at h
    · simp [Ne.symm hoe] at h
      obtain ⟨i₁, i₂⟩ := ih (onRemoveStep w e) h
      rw [List.foldl_cons]
      refine ⟨?_, ?_⟩
      · rw [i₁, onRemoveStep_get_ne w e o hoe]
      · rw [i₂]
        obtain ⟨t₁, h₁, hall⟩ := onRemoveStep_commands_sub w e
        rw [h₁, List.count_append,
          List.count_eq_zero.mpr (fun hm => hoe (hall o hm))]
        omega

theorem foldOnRemove_count_one (l : List Entity) (w : World) (o : Entity)
    (st : ObserverState) (ho : o ∈ w.alive) (hst : mget w.observer o = some st)
    (h : l.count o = 1) :
    mget (l.foldl onRemoveStep w).observer o =
      some { st with despawned_watched_entities := st.despawned_watched_entities + 1 } ∧
    (l.foldl onRemoveStep w).commands.count o = w.commands.count o +
      (if st.descriptor.entities.length = st.despawned_watched_entities + 1
        then 1 else 0) := by
  induction l generalizing w with
  | nil => simp at h
  | cons e t ih =>
    rw [List.count_cons] at h
    rw [List.foldl_cons]
    by_cases hoe : o = e
    · subst hoe
      simp at h
      have h₀ : t.count o = 0 := by omega
      have hget := onRemoveStep_get_self w o st ho hst
      have hcmd := onRemoveStep_commands_live w o st ho hst
      obtain ⟨z₁, z₂⟩ := foldOnRemove_count_zero t (onRemoveStep w o) o h₀
      refine ⟨?_, ?_⟩
      · rw [z₁, hget]
      · rw [z₂, hcmd, List.count_append]
        split <;> simp
    · simp [Ne.symm hoe] at h
      have halive : o ∈ (onRemoveStep w e).alive := by
        rw [onRemoveStep_alive]; exact ho
      have hget : mget (onRemoveStep w e).observer o = some st := by
        rw [onRemoveStep_get_ne w e o hoe, hst]
      obtain ⟨i₁, i₂⟩ := ih (onRemoveStep w e) halive hget h
      refine ⟨i₁, ?_⟩
      rw [i₂]
      obtain ⟨t₁, h₁, hall⟩ := onRemoveStep_commands_sub w e
      rw [h₁, List.count_append,
        List.count_eq_zero.mpr (fun hm => hoe (hall o hm))]
      simp

theorem observedByOnRemove_eq (w : World) (E : Entity) (l : List Entity)
    (h : mget w.observed_by E = some l) :
    observedByOnRemove w E =
      some (l.foldl onRemoveStep { w with observed_by := mput w.observed_by E [] }) := by
  unfold observedByOnRemove
  rw [h]

theorem observedByOnRemove_absent (w : World) (E : Entity)
    (h : mget w.observed_by E = none) : observedByOnRemove w E = none := by
  unfold observedByOnRemove
  rw [h]

/-! ### Example worlds for concrete instantiations -/

/-- Example world: entity 1 watched by observer 3 (event kind 5, whole-entity),
entity 2 free. -/
def exA : World :=
  { alive := [1, 2, 3],
    observed_by := [(1, [3])],
    observer := [(3, { descriptor := { events := [5], components := [], entities := [1] },
                       despawned_watched_entities := 0 })],
    observers := [(5, { entity_observers := [(1, [3])], component_observers := [] })],
    commands := [] }

/-- State of `exA` after the `ObservedBy` on-remove hook ran for entity 1. -/
def exA1 : World :=
  { alive := [1, 2, 3],
    observed_by := [(1, [])],
    observer := [(3, { descriptor := { events := [5], components := [], entities := [1] },
                       despawned_watched_entities := 1 })],
    observers := [(5, { entity_observers := [(1, [3])], component_observers := [] })],
    commands := [3] }

/-- Example world: entity 1's back-reference names observer 2, which is no
longer alive. -/
def exDead : World :=
  { alive := [1],
    observed_by := [(1, [2])],
    observer := [],
    observers := [],
    commands := [] }

/-! ### C5 — take-then-process prevents double counting -/

/-- C5: the removal hook takes the back-reference and leaves an empty list in
its place, so a reentrant second run of the hook for the same watched entity
finds an empty list and changes nothing: it returns the state it was given,
incrementing no counter and enqueuing nothing. -/
theorem observedByOnRemove_reentrant (w w₁ : World) (E : Entity)
    (h : observedByOnRemove w E = some w₁) :
    mget w₁.observed_by E = some [] ∧ observedByOnRemove w₁ E = some w₁ := by
  unfold observedByOnRemove at h
  cases hl : mget w.observed_by E with
  | none => rw [hl] at h; exact absurd h (by simp)
  | some l =>
    rw [hl] at h
    simp only [Option.some.injEq] at h
    have hob : w₁.observed_by = mput w.observed_by E [] := by
      rw [← h, foldOnRemove_observed_by]
    have hget : mget w₁.observed_by E = some [] := by
      rw [hob, mget_mput_self]
    refine ⟨hget, ?_⟩
    unfold observedByOnRemove
    rw [hget]
    simp only [List.foldl_nil, Option.some.injEq]
    have : mput w₁.observed_by E [] = w₁.observed_by := by
      rw [hob, mput_mput_self]
    rw [this]

/-- C5 witness: the reentrancy theorem at the concrete world `exA`. -/
theorem observedByOnRemove_reentrant_witness :
    mget exA1.observed_by 1 = some [] ∧ observedByOnRemove exA1 1 = some exA1 :=
  observedByOnRemove_reentrant exA exA1 1 (by decide)

/-! ### C7 — dead observer entries are skipped silently -/

/-- C7: an observer entity in the taken back-reference list that is no longer
alive is skipped as a no-op (no counter changed, nothing enqueued), and the
hook as a whole still succeeds whenever the back-reference is present. -/
theorem deadObserverSkippedSilently :
    (∀ (w : World) (e : Entity), e ∉ w.alive → onRemoveStep w e = w) ∧
    (∀ (w : World) (E : Entity) (l : List Entity),
      mget w.observed_by E = some l → (observedByOnRemove w E).isSome = true) := by
  refine ⟨fun w e h => onRemoveStep_dead w e h, fun w E l h => ?_⟩
  rw [observedByOnRemove_eq w E l h]
  rfl

/-- C7 witness: entity 2 is dead in `exDead`, its entry is skipped as a no-op,
and the hook on entity 1 still succeeds. -/
theorem deadObserverSkippedSilently_witness :
    onRemoveStep exDead 2 = exDead ∧ (observedByOnRemove exDead 1).isSome = true :=
  ⟨deadObserverSkippedSilently.1 exDead 2 (by decide),
   deadObserverSkippedSilently.2 exDead 1 [2] (by decide)⟩

/-! ### C9 — the cascade never touches the global index -/

/-- C9: the despawn-cascade hook leaves the global index and the live-entity
set untouched, changes no back-reference other than the removed entity's own,
changes no observer descriptor (only despawn counters), and only appends to
the deferred command queue. -/
theorem cascadeFrame (w w₁ : World) (E : Entity)
    (h : observedByOnRemove w E = some w₁) :
    w₁.observers = w.observers ∧
    w₁.alive = w.alive ∧
    (∀ k, k ≠ E → mget w₁.observed_by k = mget w.observed_by k) ∧
    (∀ o, (mget w₁.observer o).map (fun st => st.descriptor)
        = (mget w.observer o).map (fun st => st.descriptor)) ∧
    (∃ t, w₁.commands = w.commands ++ t) := by
  unfold observedByOnRemove at h
  cases hl : mget w.observed_by E with
  | none => rw [hl] at h; exact absurd h (by simp)
  | some l =>
    rw [hl] at h
    simp only [Option.some.injEq] at h
    subst h
    refine ⟨foldOnRemove_observers .., foldOnRemove_alive .., ?_, ?_, ?_⟩
    · intro k hk
      rw [foldOnRemove_observed_by]
      exact mget_mput_ne _ _ _ _ hk
    · intro o
      rw [foldOnRemove_desc]
    · obtain ⟨t, ht, _⟩ := foldOnRemove_commands_sub l
        { w with observed_by := mput w.observed_by E [] }
      exact ⟨t, ht⟩

/-- C9 witness: the frame theorem at the concrete world `exA`. -/
theorem cascadeFrame_witness :
    exA1.observers = exA.observers ∧ exA1.alive = exA.alive ∧
    mget exA1.observed_by 3 = mget exA.observed_by 3 :=
  ⟨(cascadeFrame exA exA1 1 (by decide)).1,
   (cascadeFrame exA exA1 1 (by decide)).2.1,
   (cascadeFrame exA exA1 1 (by decide)).2.2.1 3 (by decide)⟩

/-! ### Clone-propagation: component-map view lemmas -/

/-- View into a `component_observers` map: the observer set for component kind
`c` and entity `x`. -/
def coView (co : List (Key × ComponentObservers)) (c : Key) (x : Entity) :
    Option ObserverSet :=
  match mget co c with
  | none => none
  | some cb => mget cb.entity_component_observers x

theorem coView_step_ne_target (s t : Entity) (co : List (Key × ComponentObservers))
    (c₀ c : Key) (x : Entity) (hx : x ≠ t) :
    coView (cloneComponentStep s t co c₀) c x = coView co c x := by
  cases h₁ : mget co c₀ with
  | none => simp [cloneComponentStep, h₁]
  | some cb =>
    cases h₂ : mget cb.entity_component_observers s with
    | none => simp [cloneComponentStep, h₁, h₂]
    | some m =>
      simp only [cloneComponentStep, h₁, h₂]
      unfold coView
      rw [mget_mput]
      by_cases hc : c = c₀
      · subst hc
        rw [if_pos rfl, h₁]
        dsimp only
        rw [mget_mput_ne _ _ _ _ hx]
      · rw [if_neg hc]

theorem coView_step_pair (s t : Entity) (co : List (Key × ComponentObservers))
    (c₀ c : Key) (m : ObserverSet) (hst : s ≠ t)
    (hs : coView co c s = some m) (ht : coView co c t = some m) :
    coView (cloneComponentStep s t co c₀) c s = some m ∧
    coView (cloneComponentStep s t co c₀) c t = some m := by
  refine ⟨by rw [coView_step_ne_target s t co c₀ c s hst]; exact hs, ?_⟩
  cases h₁ : mget co c₀ with
  | none => simpa [cloneComponentStep, h₁] using ht
  | some cb =>
    cases h₂ : mget cb.entity_component_observers s with
    | none => simpa [cloneComponentStep, h₁, h₂] using ht
    | some m₀ =>
      simp only [cloneComponentStep, h₁, h₂]
      unfold coView
      rw [mget_mput]
      by_cases hcc : c = c₀
      · subst hcc
        rw [if_pos rfl]
        dsimp only
        rw [mget_mput_self]
        unfold coView at hs
        rw [h₁] at hs
        dsimp only at hs
        rw [h₂] at hs
        exact hs
      · rw [if_neg hcc]
        exact ht

theorem coView_step_establish (s t : Entity) (co : List (Key × ComponentObservers))
    (c : Key) (m : ObserverSet)
    (hs : coView co c s = some m) :
    coView (cloneComponentStep s t co c) c t = some m := by
  unfold coView at hs
  cases h₁ : mget co c with
  | none => rw [h₁] at hs; exact absurd hs (by simp)
  | some cb =>
    rw [h₁] at hs
    dsimp only at hs
    simp only [cloneComponentStep, h₁, hs]
    unfold coView
    rw [mget_mput_self]
    dsimp only
    rw [mget_mput_self]

theorem coFold_ne_target (s t : Entity) (comps : List Key)
    (co : List (Key × ComponentObservers)) (c : Key) (x : Entity) (hx : x ≠ t) :
    coView (comps.foldl (cloneComponentStep s t) co) c x = coView co c x := by
  induction comps generalizing co with
  | nil => rfl
  | cons c₀ cs ih =>
    rw [List.foldl_cons, ih, coView_step_ne_target s t co c₀ c x hx]

theorem coFold_pair (s t : Entity) (comps : List Key)
    (co : List (Key × ComponentObservers)) (c : Key) (m : ObserverSet)
    (hst : s ≠ t) (hs : coView co c s = some m) (ht : coView co c t = some m) :
    coView (comps.foldl (cloneComponentStep s t) co) c s = some m ∧
    coView (comps.foldl (cloneComponentStep s t) co) c t = some m := by
  induction comps generalizing co with
  | nil => exact ⟨hs, ht⟩
  | cons c₀ cs ih =>
    obtain ⟨hs₁, ht₁⟩ := coView_step_pair s t co c₀ c m hst hs ht
    rw [List.foldl_cons]
    exact ih (cloneComponentStep s t co c₀) hs₁ ht₁

theorem coFold_establish (s t : Entity) (comps : List Key)
    (co : List (Key × ComponentObservers)) (c : Key) (m : ObserverSet)
    (hst : s ≠ t) (hc : c ∈ comps) (hs : coView co c s = some m) :
    coView (comps.foldl (cloneComponentStep s t) co) c t = some m := by
  induction comps generalizing co with
  | nil => exact absurd hc (by simp)
  | cons c₀ cs ih =>
    rw [List.foldl_cons]
    by_cases hcc : c₀ = c
    · subst hcc
      have ht₁ := coView_step_establish s t co c₀ m hs
      have hs₁ : coView (cloneComponentStep s t co c₀) c₀ s = some m := by
        rw [coView_step_ne_target s t co c₀ c₀ s hst]; exact hs
      exact (coFold_pair s t cs (cloneComponentStep s t co c₀) c₀ m hst hs₁ ht₁).2
    · have hc₁ : c ∈ cs := by
        rcases List.mem_cons.mp hc with h | h
        · exact absurd h.symm hcc
        · exact h
      have hs₁ : coView (cloneComponentStep s t co c₀) c s = some m := by
        rw [coView_step_ne_target s t co c₀ c s hst]; exact hs
      exact ih (cloneComponentStep s t co c₀) hc₁ hs₁

/-! ### Clone-propagation: event-bucket step lemmas -/

theorem entObs_getD (w : World) (k : Key) (x : Entity) :
    mget (getObserversD w k).entity_observers x = entObs w k x := by
  unfold getObserversD entObs
  cases mget w.observers k <;> simp [mget]

theorem coView_getD (w : World) (k : Key) (c : Key) (x : Entity) :
    coView (getObserversD w k).component_observers c x = compObs w k c x := by
  unfold getObserversD compObs coView
  cases mget w.observers k <;> simp [mget, coView]

theorem cloneEventStep_observers (s t : Entity) (comps : List Key) (w : World)
    (kt : Key) :
    (cloneEventStep s t comps w kt).observers = mput w.observers kt
      (let obs := getObserversD w kt
       if comps.isEmpty then
        match mget obs.entity_observers s with
        | some m => { obs with entity_observers := mput obs.entity_observers t m }
        | none => obs
       else
        { obs with component_observers :=
            comps.foldl (cloneComponentStep s t) obs.component_observers }) := rfl

theorem cloneEventStep_fields (s t : Entity) (comps : List Key) (w : World)
    (kt : Key) :
    (cloneEventStep s t comps w kt).observer = w.observer ∧
    (cloneEventStep s t comps w kt).observed_by = w.observed_by ∧
    (cloneEventStep s t comps w kt).alive = w.alive ∧
    (cloneEventStep s t comps w kt).commands = w.commands :=
  ⟨rfl, rfl, rfl, rfl⟩

theorem entObs_put_bucket (w : World) (kt : Key) (b : CachedObservers)
    (k : Key) (x : Entity) (w₂ : World) (h : w₂.observers = mput w.observers kt b) :
    entObs w₂ k x = if k = kt then mget b.entity_observers x else entObs w k x := by
  unfold entObs
  rw [h, mget_mput]
  by_cases hk : k = kt
  · rw [if_pos hk, if_pos hk]
  · rw [if_neg hk, if_neg hk]

theorem compObs_put_bucket (w : World) (kt : Key) (b : CachedObservers)
    (k c : Key) (x : Entity) (w₂ : World) (h : w₂.observers = mput w.observers kt b) :
    compObs w₂ k c x =
      if k = kt then coView b.component_observers c x else compObs w k c x := by
  unfold compObs coView
  rw [h, mget_mput]
  by_cases hk : k = kt
  · rw [if_pos hk, if_pos hk]
  · rw [if_neg hk, if_neg hk]

theorem entObs_eventStep_ne_target (s t : Entity) (comps : List Key) (w : World)
    (kt k : Key) (x : Entity) (hx : x ≠ t) :
    entObs (cloneEventStep s t comps w kt) k x = entObs w k x := by
  rw [entObs_put_bucket w kt _ k x _ (cloneEventStep_observers s t comps w kt)]
  by_cases hk : k = kt
  · rw [if_pos hk]
    subst hk
    dsimp only
    by_cases hce : comps.isEmpty
    · rw [if_pos hce]
      cases hsrc : mget (getObserversD w k).entity_observers s with
      | none => simp only [hsrc]; exact entObs_getD w k x
      | some m =>
        simp only [hsrc]
        rw [mget_mput_ne _ _ _ _ hx]
        exact entObs_getD w k x
    · rw [if_neg hce]
      exact entObs_getD w k x
  · rw [if_neg hk]

theorem compObs_eventStep_ne_target (s t : Entity) (comps : List Key) (w : World)
    (kt k c : Key) (x : Entity) (hx : x ≠ t) :
    compObs (cloneEventStep s t comps w kt) k c x = compObs w k c x := by
  rw [compObs_put_bucket w kt _ k c x _ (cloneEventStep_observers s t comps w kt)]
  by_cases hk : k = kt
  · rw [if_pos hk]
    subst hk
    dsimp only
    by_cases hce : comps.isEmpty
    · rw [if_pos hce]
      cases hsrc : mget (getObserversD w k).entity_observers s with
      | none => simp only [hsrc]; exact coView_getD w k c x
      | some m => simp only [hsrc]; exact coView_getD w k c x
    · rw [if_neg hce]
      dsimp only
      rw [coFold_ne_target s t comps _ c x hx]
      exact coView_getD w k c x
  · rw [if_neg hk]

theorem entObs_eventStep_pair (s t : Entity) (comps : List Key) (w : World)
    (kt k : Key) (m : ObserverSet) (hst : s ≠ t)
    (hs : entObs w k s = some m) (ht : entObs w k t = some m) :
    entObs (cloneEventStep s t comps w kt) k s = some m ∧
    entObs (cloneEventStep s t comps w kt) k t = some m := by
  refine ⟨by rw [entObs_eventStep_ne_target s t comps w kt k s hst]; exact hs, ?_⟩
  rw [entObs_put_bucket w kt _ k t _ (cloneEventStep_observers s t comps w kt)]
  by_cases hk : k = kt
  · rw [if_pos hk]
    subst hk
    dsimp only
    by_cases hce : comps.isEmpty
    · rw [if_pos hce]
      cases hsrc : mget (getObserversD w k).entity_observers s with
      | none =>
        rw [entObs_getD] at hsrc
        rw [hsrc] at hs
        exact absurd hs (by simp)
      | some m₀ =>
        have hm : m₀ = m := by
          rw [entObs_getD] at hsrc
          rw [hs] at hsrc
          exact (Option.some.inj hsrc).symm
        simp only [hsrc]
        rw [mget_mput_self, hm]
    · rw [if_neg hce]
      rw [entObs_getD]
      exact ht
  · rw [if_neg hk]
    exact ht

theorem compObs_eventStep_pair (s t : Entity) (comps : List Key) (w : World)
    (kt k c : Key) (m : ObserverSet) (hst : s ≠ t)
    (hs : compObs w k c s = some m) (ht : compObs w k c t = some m) :
    compObs (cloneEventStep s t comps w kt) k c s = some m ∧
    compObs (cloneEventStep s t comps w kt) k c t = some m := by
  refine ⟨by rw [compObs_eventStep_ne_target s t comps w kt k c s hst]; exact hs, ?_⟩
  rw [compObs_put_bucket w kt _ k c t _ (cloneEventStep_observers s t comps w kt)]
  by_cases hk : k = kt
  · rw [if_pos hk]
    subst hk
    dsimp only
    by_cases hce : comps.isEmpty
    · rw [if_pos hce]
      cases hsrc : mget (getObserversD w k).entity_observers s with
      | none => simp only [hsrc]; rw [coView_getD]; exact ht
      | some m₀ => simp only [hsrc]; rw [coView_getD]; exact ht
    · rw [if_neg hce]
      dsimp only
      have hs₁ : coView (getObserversD w k).component_observers c s = some m := by
        rw [coView_getD]; exact hs
      have ht₁ : coView (getObserversD w k).component_observers c t = some m := by
        rw [coView_getD]; exact ht
      exact (coFold_pair s t comps _ c m hst hs₁ ht₁).2
  · rw [if_neg hk]
    exact ht

theorem entObs_eventStep_establish (s t : Entity) (comps : List Key) (w : World)
    (kt : Key) (m : ObserverSet) (hce : comps.isEmpty = true)
    (hs : entObs w kt s = some m) :
    entObs (cloneEventStep s t comps w kt) kt t = some m := by
  rw [entObs_put_bucket w kt _ kt t _ (cloneEventStep_observers s t comps w kt)]
  rw [if_pos rfl]
  dsimp only
  rw [if_pos hce]
  have hsrc : mget (getObserversD w kt).entity_observers s = some m := by
    rw [entObs_getD]; exact hs
  simp only [hsrc]
  rw [mget_mput_self]

theorem compObs_eventStep_establish (s t : Entity) (comps : List Key) (w : World)
    (kt c : Key) (m : ObserverSet) (hst : s ≠ t) (hc : c ∈ comps)
    (hs : compObs w kt c s = some m) :
    compObs (cloneEventStep s t comps w kt) kt c t = some m := by
  rw [compObs_put_bucket w kt _ kt c t _ (cloneEventStep_observers s t comps w kt)]
  rw [if_pos rfl]
  dsimp only
  have hce : comps.isEmpty = false := by
    cases comps with
    | nil => exact absurd hc (by simp)
    | cons a b => rfl
  rw [hce]
  have hs₁ : coView (getObserversD w kt).component_observers c s = some m := by
    rw [coView_getD]; exact hs
  exact coFold_establish s t comps _ c m hst hc hs₁

/-! ### Clone-propagation: event-fold lemmas -/

theorem entObs_congr (w w₂ : World) (h : w₂.observers = w.observers) (k : Key)
    (x : Entity) : entObs w₂ k x = entObs w k x := by
  unfold entObs
  rw [h]

theorem compObs_congr (w w₂ : World) (h : w₂.observers = w.observers) (k c : Key)
    (x : Entity) : compObs w₂ k c x = compObs w k c x := by
  unfold compObs
  rw [h]

theorem evFold_fields (s t : Entity) (comps : List Key) (ks : List Key) (w : World) :
    (ks.foldl (cloneEventStep s t comps) w).observer = w.observer ∧
    (ks.foldl (cloneEventStep s t comps) w).observed_by = w.observed_by ∧
    (ks.foldl (cloneEventStep s t comps) w).alive = w.alive ∧
    (ks.foldl (cloneEventStep s t comps) w).commands = w.commands := by
  induction ks generalizing w with
  | nil => exact ⟨rfl, rfl, rfl, rfl⟩
  | cons k₀ ks ih =>
    rw [List.foldl_cons]
    obtain ⟨i₁, i₂, i₃, i₄⟩ := ih (cloneEventStep s t comps w k₀)
    exact ⟨i₁, i₂, i₃, i₄⟩

theorem evFold_entObs_ne_target (s t : Entity) (comps ks : List Key) (w : World)
    (k : Key) (x : Entity) (hx : x ≠ t) :
    entObs (ks.foldl (cloneEventStep s t comps) w) k x = entObs w k x := by
  induction ks generalizing w with
  | nil => rfl
  | cons k₀ ks ih =>
    rw [List.foldl_cons, ih, entObs_eventStep_ne_target s t comps w k₀ k x hx]

theorem evFold_compObs_ne_target (s t : Entity) (comps ks : List Key) (w : World)
    (k c : Key) (x : Entity) (hx : x ≠ t) :
    compObs (ks.foldl (cloneEventStep s t comps) w) k c x = compObs w k c x := by
  induction ks generalizing w with
  | nil => rfl
  | cons k₀ ks ih =>
    rw [List.foldl_cons, ih, compObs_eventStep_ne_target s t comps w k₀ k c x hx]

theorem evFold_entObs_pair (s t : Entity) (comps ks : List Key) (w : World)
    (k : Key) (m : ObserverSet) (hst : s ≠ t)
    (hs : entObs w k s = some m) (ht : entObs w k t = some m) :
    entObs (ks.foldl (cloneEventStep s t comps) w) k s = some m ∧
    entObs (ks.foldl (cloneEventStep s t comps) w) k t = some m := by
  induction ks generalizing w with
  | nil => exact ⟨hs, ht⟩
  | cons k₀ ks ih =>
    obtain ⟨hs₁, ht₁⟩ := entObs_eventStep_pair s t comps w k₀ k m hst hs ht
    rw [List.foldl_cons]
    exact ih (cloneEventStep s t comps w k₀) hs₁ ht₁

theorem evFold_compObs_pair (s t : Entity) (comps ks : List Key) (w : World)
    (k c : Key) (m : ObserverSet) (hst : s ≠ t)
    (hs : compObs w k c s = some m) (ht : compObs w k c t = some m) :
    compObs (ks.foldl (cloneEventStep s t comps) w) k c s = some m ∧
    compObs (ks.foldl (cloneEventStep s t comps) w) k c t = some m := by
  induction ks generalizing w with
  | nil => exact ⟨hs, ht⟩
  | cons k₀ ks ih =>
    obtain ⟨hs₁, ht₁⟩ := compObs_eventStep_pair s t comps w k₀ k c m hst hs ht
    rw [List.foldl_cons]
    exact ih (cloneEventStep s t comps w k₀) hs₁ ht₁

theorem evFold_entObs_establish (s t : Entity) (comps ks : List Key) (w : World)
    (k : Key) (m : ObserverSet) (hst : s ≠ t) (hk : k ∈ ks)
    (hce : comps.isEmpty = true) (hs : entObs w k s = some m) :
    entObs (ks.foldl (cloneEventStep s t comps) w) k t = some m := by
  induction ks generalizing w with
  | nil => exact absurd hk (by simp)
  | cons k₀ ks ih =>
    rw [List.foldl_cons]
    by_cases hkk : k₀ = k
    · subst hkk
      have ht₁ := entObs_eventStep_establish s t comps w k₀ m hce hs
      have hs₁ : entObs (cloneEventStep s t comps w k₀) k₀ s = some m := by
        rw [entObs_eventStep_ne_target s t comps w k₀ k₀ s hst]; exact hs
      exact (evFold_entObs_pair s t comps ks _ k₀ m hst hs₁ ht₁).2
    · have hk₁ : k ∈ ks := by
        rcases List.mem_cons.mp hk with h | h
        · exact absurd h.symm hkk
        · exact h
      have hs₁ : entObs (cloneEventStep s t comps w k₀) k s = some m := by
        rw [entObs_eventStep_ne_target s t comps w k₀ k s hst]; exact hs
      exact ih (cloneEventStep s t comps w k₀) hk₁ hs₁

theorem evFold_compObs_establish (s t : Entity) (comps ks : List Key) (w : World)
    (k c : Key) (m : ObserverSet) (hst : s ≠ t) (hk : k ∈ ks) (hc : c ∈ comps)
    (hs : compObs w k c s = some m) :
    compObs (ks.foldl (cloneEventStep s t comps) w) k c t = some m := by
  induction ks generalizing w with
  | nil => exact absurd hk (by simp)
  | cons k₀ ks ih =>
    rw [List.foldl_cons]
    by_cases hkk : k₀ = k
    · subst hkk
      have ht₁ := compObs_eventStep_establish s t comps w k₀ c m hst hc hs
      have hs₁ : compObs (cloneEventStep s t comps w k₀) k₀ c s = some m := by
        rw [compObs_eventStep_ne_target s t comps w k₀ k₀ c s hst]; exact hs
      exact (evFold_compObs_pair s t comps ks _ k₀ c m hst hs₁ ht₁).2
    · have hk₁ : k ∈ ks := by
        rcases List.mem_cons.mp hk with h | h
        · exact absurd h.symm hkk
        · exact h
      have hs₁ : compObs (cloneEventStep s t comps w k₀) k c s = some m := by
        rw [compObs_eventStep_ne_target s t comps w k₀ k c s hst]; exact hs
      exact ih (cloneEventStep s t comps w k₀) hk₁ hs₁

/-! ### Clone-propagation: observer-step lemmas -/

/-- Shape of one observer entry after `target` was pushed onto its
watched-entity list. -/
def pushEntity (t : Entity) (st : ObserverState) : ObserverState :=
  { st with descriptor :=
      { st.descriptor with entities := st.descriptor.entities ++ [t] } }

theorem cloneObserverStep_missing (s t : Entity) (w : World) (oe : Entity)
    (h : mget w.observer oe = none) : cloneObserverStep s t w oe = none := by
  unfold cloneObserverStep
  rw [h]

theorem cloneObserverStep_eq (s t : Entity) (w : World) (oe : Entity)
    (st : ObserverState) (h : mget w.observer oe = some st) :
    cloneObserverStep s t w oe = some
      (st.descriptor.events.foldl (cloneEventStep s t st.descriptor.components)
        { w with observer := mput w.observer oe (pushEntity t st) }) := by
  unfold cloneObserverStep
  rw [h]
  rfl


theorem cloneObserverStep_fields (s t : Entity) (w w₁ : World) (oe : Entity)
    (h : cloneObserverStep s t w oe = some w₁) :
    w₁.observed_by = w.observed_by ∧ w₁.alive = w.alive ∧
    w₁.commands = w.commands ∧
    ∃ st, mget w.observer oe = some st ∧
      w₁.observer = mput w.observer oe (pushEntity t st) := by
  cases hst : mget w.observer oe with
  | none => rw [cloneObserverStep_missing s t w oe hst] at h; exact absurd h (by simp)
  | some st =>
    rw [cloneObserverStep_eq s t w oe st hst] at h
    simp only [Option.some.injEq] at h
    subst h
    obtain ⟨f₁, f₂, f₃, f₄⟩ := evFold_fields s t st.descriptor.components
      st.descriptor.events { w with observer := mput w.observer oe (pushEntity t st) }
    exact ⟨f₂, f₃, f₄, st, rfl, f₁⟩

/-! ### Clone-propagation: observer-fold lemmas -/

theorem cloneFoldAux_none (s t : Entity) (l : List Entity) :
    l.foldl (fun ow oe => ow.bind (fun w₁ => cloneObserverStep s t w₁ oe)) none
      = none := by
  induction l with
  | nil => rfl
  | cons e l ih =>
    rw [List.foldl_cons]
    exact ih

theorem cloneFold_cons_none (s t e : Entity) (l : List Entity) (w : World)
    (h : cloneObserverStep s t w e = none) : cloneFold s t (e :: l) w = none := by
  unfold cloneFold
  rw [List.foldl_cons]
  have hinit : ((some w).bind fun w₁ => cloneObserverStep s t w₁ e)
      = cloneObserverStep s t w e := rfl
  rw [hinit, h]
  exact cloneFoldAux_none s t l

theorem cloneFold_cons_some (s t e : Entity) (l : List Entity) (w w₂ : World)
    (h : cloneObserverStep s t w e = some w₂) :
    cloneFold s t (e :: l) w = cloneFold s t l w₂ := by
  unfold cloneFold
  rw [List.foldl_cons]
  have hinit : ((some w).bind fun w₁ => cloneObserverStep s t w₁ e)
      = cloneObserverStep s t w e := rfl
  rw [hinit, h]

theorem cloneFold_fields (s t : Entity) (l : List Entity) (w w₁ : World)
    (h : cloneFold s t l w = some w₁) :
    w₁.observed_by = w.observed_by ∧ w₁.alive = w.alive ∧
    w₁.commands = w.commands := by
  induction l generalizing w with
  | nil =>
    unfold cloneFold at h
    simp only [List.foldl_nil, Option.some.injEq] at h
    subst h
    exact ⟨rfl, rfl, rfl⟩
  | cons e l ih =>
    cases hstep : cloneObserverStep s t w e with
    | none =>
      rw [cloneFold_cons_none s t e l w hstep] at h
      exact absurd h (by simp)
    | some w₂ =>
      rw [cloneFold_cons_some s t e l w w₂ hstep] at h
      obtain ⟨f₁, f₂, f₃, _, _, _⟩ := cloneObserverStep_fields s t w w₂ e hstep
      obtain ⟨i₁, i₂, i₃⟩ := ih w₂ h
      exact ⟨i₁.trans f₁, i₂.trans f₂, i₃.trans f₃⟩

theorem cloneFold_observer (s t : Entity) (l : List Entity) (w w₁ : World)
    (h : cloneFold s t l w = some w₁) (o : Entity) :
    mget w₁.observer o = (mget w.observer o).map (fun st =>
      { st with descriptor := { st.descriptor with
          entities := st.descriptor.entities ++ List.replicate (l.count o) t } }) := by
  induction l generalizing w with
  | nil =>
    unfold cloneFold at h
    simp only [List.foldl_nil, Option.some.injEq] at h
    subst h
    cases mget w.observer o <;> simp
  | cons e l ih =>
    cases hstep : cloneObserverStep s t w e with
    | none =>
      rw [cloneFold_cons_none s t e l w hstep] at h
      exact absurd h (by simp)
    | some w₂ =>
      rw [cloneFold_cons_some s t e l w w₂ hstep] at h
      obtain ⟨_, _, _, st_e, hst_e, hobs⟩ := cloneObserverStep_fields s t w w₂ e hstep
      rw [ih w₂ h, hobs, mget_mput]
      by_cases hoe : o = e
      · subst hoe
        rw [if_pos rfl, hst_e]
        simp [pushEntity, List.count_cons, List.replicate_succ, List.append_assoc]
      · rw [if_neg hoe]
        have : (e :: l).count o = l.count o := by
          rw [List.count_cons]
          simp [Ne.symm hoe]
        rw [this]

theorem cloneFold_missing (s t : Entity) (l : List Entity) (w : World) (o : Entity)
    (ho : o ∈ l) (h : mget w.observer o = none) : cloneFold s t l w = none := by
  induction l generalizing w with
  | nil => exact absurd ho (by simp)
  | cons e l ih =>
    by_cases hoe : e = o
    · subst hoe
      exact cloneFold_cons_none s t e l w (cloneObserverStep_missing s t w e h)
    · cases hstep : cloneObserverStep s t w e with
      | none => exact cloneFold_cons_none s t e l w hstep
      | some w₂ =>
        rw [cloneFold_cons_some s t e l w w₂ hstep]
        obtain ⟨_, _, _, st_e, hst_e, hobs⟩ := cloneObserverStep_fields s t w w₂ e hstep
        have ho₂ : o ∈ l := by
          rcases List.mem_cons.mp ho with hh | hh
          · exact absurd hh.symm hoe
          · exact hh
        exact ih w₂ ho₂
          (by rw [hobs, mget_mput_ne _ _ _ _ (fun hh => hoe hh.symm)]; exact h)

theorem cloneObserverStep_entObs_ne_target (s t : Entity) (w w₂ : World)
    (oe : Entity) (hstep : cloneObserverStep s t w oe = some w₂) (k : Key)
    (x : Entity) (hx : x ≠ t) : entObs w₂ k x = entObs w k x := by
  cases hst : mget w.observer oe with
  | none =>
    rw [cloneObserverStep_missing s t w oe hst] at hstep
    exact absurd hstep (by simp)
  | some st =>
    rw [cloneObserverStep_eq s t w oe st hst] at hstep
    simp only [Option.some.injEq] at hstep
    subst hstep
    rw [evFold_entObs_ne_target s t st.descriptor.components st.descriptor.events
      _ k x hx]
    rfl

theorem cloneObserverStep_compObs_ne_target (s t : Entity) (w w₂ : World)
    (oe : Entity) (hstep : cloneObserverStep s t w oe = some w₂) (k c : Key)
    (x : Entity) (hx : x ≠ t) : compObs w₂ k c x = compObs w k c x := by
  cases hst : mget w.observer oe with
  | none =>
    rw [cloneObserverStep_missing s t w oe hst] at hstep
    exact absurd hstep (by simp)
  | some st =>
    rw [cloneObserverStep_eq s t w oe st hst] at hstep
    simp only [Option.some.injEq] at hstep
    subst hstep
    rw [evFold_compObs_ne_target s t st.descriptor.components st.descriptor.events
      _ k c x hx]
    rfl

theorem cloneObserverStep_entObs_pair (s t : Entity) (w w₂ : World) (oe : Entity)
    (hstep : cloneObserverStep s t w oe = some w₂) (k : Key) (m : ObserverSet)
    (hst : s ≠ t) (hs : entObs w k s = some m) (ht : entObs w k t = some m) :
    entObs w₂ k s = some m ∧ entObs w₂ k t = some m := by
  cases hso : mget w.observer oe with
  | none =>
    rw [cloneObserverStep_missing s t w oe hso] at hstep
    exact absurd hstep (by simp)
  | some st =>
    rw [cloneObserverStep_eq s t w oe st hso] at hstep
    simp only [Option.some.injEq] at hstep
    subst hstep
    have hs₁ : entObs { w with observer := mput w.observer oe (pushEntity t st) }
        k s = some m := hs
    have ht₁ : entObs { w with observer := mput w.observer oe (pushEntity t st) }
        k t = some m := ht
    exact evFold_entObs_pair s t st.descriptor.components st.descriptor.events
      _ k m hst hs₁ ht₁

theorem cloneObserverStep_compObs_pair (s t : Entity) (w w₂ : World) (oe : Entity)
    (hstep : cloneObserverStep s t w oe = some w₂) (k c : Key) (m : ObserverSet)
    (hst : s ≠ t) (hs : compObs w k c s = some m) (ht : compObs w k c t = some m) :
    compObs w₂ k c s = some m ∧ compObs w₂ k c t = some m := by
  cases hso : mget w.observer oe with
  | none =>
    rw [cloneObserverStep_missing s t w oe hso] at hstep
    exact absurd hstep (by simp)
  | some st =>
    rw [cloneObserverStep_eq s t w oe st hso] at hstep
    simp only [Option.some.injEq] at hstep
    subst hstep
    have hs₁ : compObs { w with observer := mput w.observer oe (pushEntity t st) }
        k c s = some m := hs
    have ht₁ : compObs { w with observer := mput w.observer oe (pushEntity t st) }
        k c t = some m := ht
    exact evFold_compObs_pair s t st.descriptor.components st.descriptor.events
      _ k c m hst hs₁ ht₁

theorem cloneObserverStep_entObs_establish (s t : Entity) (w w₂ : World)
    (O : Entity) (st : ObserverState)
    (hstep : cloneObserverStep s t w O = some w₂)
    (hstO : mget w.observer O = some st)
    (hcomps : st.descriptor.components = []) (k : Key) (m : ObserverSet)
    (hk : k ∈ st.descriptor.events) (hst : s ≠ t) (hs : entObs w k s = some m) :
    entObs w₂ k t = some m := by
  rw [cloneObserverStep_eq s t w O st hstO] at hstep
  simp only [Option.some.injEq] at hstep
  subst hstep
  have hce : st.descriptor.components.isEmpty = true := by rw [hcomps]; rfl
  have hs₁ : entObs { w with observer := mput w.observer O (pushEntity t st) }
      k s = some m := hs
  exact evFold_entObs_establish s t st.descriptor.components st.descriptor.events
    _ k m hst hk hce hs₁

theorem cloneObserverStep_compObs_establish (s t : Entity) (w w₂ : World)
    (O : Entity) (st : ObserverState)
    (hstep : cloneObserverStep s t w O = some w₂)
    (hstO : mget w.observer O = some st) (k c : Key) (m : ObserverSet)
    (hk : k ∈ st.descriptor.events) (hc : c ∈ st.descriptor.components)
    (hst : s ≠ t) (hs : compObs w k c s = some m) :
    compObs w₂ k c t = some m := by
  rw [cloneObserverStep_eq s t w O st hstO] at hstep
  simp only [Option.some.injEq] at hstep
  subst hstep
  have hs₁ : compObs { w with observer := mput w.observer O (pushEntity t st) }
      k c s = some m := hs
  exact evFold_compObs_establish s t st.descriptor.components st.descriptor.events
    _ k c m hst hk hc hs₁

theorem cloneFold_entObs_pair (s t : Entity) (l : List Entity) (w w₁ : World)
    (h : cloneFold s t l w = some w₁) (k : Key) (m : ObserverSet) (hst : s ≠ t)
    (hs : entObs w k s = some m) (ht : entObs w k t = some m) :
    entObs w₁ k s = some m ∧ entObs w₁ k t = some m := by
  induction l generalizing w with
  | nil =>
    unfold cloneFold at h
    simp only [List.foldl_nil, Option.some.injEq] at h
    subst h
    exact ⟨hs, ht⟩
  | cons e l ih =>
    cases hstep : cloneObserverStep s t w e with
    | none =>
      rw [cloneFold_cons_none s t e l w hstep] at h
      exact absurd h (by simp)
    | some w₂ =>
      rw [cloneFold_cons_some s t e l w w₂ hstep] at h
      obtain ⟨hs₂, ht₂⟩ :=
        cloneObserverStep_entObs_pair s t w w₂ e hstep k m hst hs ht
      exact ih w₂ h hs₂ ht₂

theorem cloneFold_compObs_pair (s t : Entity) (l : List Entity) (w w₁ : World)
    (h : cloneFold s t l w = some w₁) (k c : Key) (m : ObserverSet) (hst : s ≠ t)
    (hs : compObs w k c s = some m) (ht : compObs w k c t = some m) :
    compObs w₁ k c s = some m ∧ compObs w₁ k c t = some m := by
  induction l generalizing w with
  | nil =>
    unfold cloneFold at h
    simp only [List.foldl_nil, Option.some.injEq] at h
    subst h
    exact ⟨hs, ht⟩
  | cons e l ih =>
    cases hstep : cloneObserverStep s t w e with
    | none =>
      rw [cloneFold_cons_none s t e l w hstep] at h
      exact absurd h (by simp)
    | some w₂ =>
      rw [cloneFold_cons_some s t e l w w₂ hstep] at h
      obtain ⟨hs₂, ht₂⟩ :=
        cloneObserverStep_compObs_pair s t w w₂ e hstep k c m hst hs ht
      exact ih w₂ h hs₂ ht₂

theorem cloneFold_entObs_ne_target (s t : Entity) (l : List Entity) (w w₁ : World)
    (h : cloneFold s t l w = some w₁) (k : Key) (x : Entity) (hx : x ≠ t) :
    entObs w₁ k x = entObs w k x := by
  induction l generalizing w with
  | nil =>
    unfold cloneFold at h
    simp only [List.foldl_nil, Option.some.injEq] at h
    subst h
    rfl
  | cons e l ih =>
    cases hstep : cloneObserverStep s t w e with
    | none =>
      rw [cloneFold_cons_none s t e l w hstep] at h
      exact absurd h (by simp)
    | some w₂ =>
      rw [cloneFold_cons_some s t e l w w₂ hstep] at h
      rw [ih w₂ h, cloneObserverStep_entObs_ne_target s t w w₂ e hstep k x hx]

theorem cloneFold_compObs_ne_target (s t : Entity) (l : List Entity) (w w₁ : World)
    (h : cloneFold s t l w = some w₁) (k c : Key) (x : Entity) (hx : x ≠ t) :
    compObs w₁ k c x = compObs w k c x := by
  induction l generalizing w with
  | nil =>
    unfold cloneFold at h
    simp only [List.foldl_nil, Option.some.injEq] at h
    subst h
    rfl
  | cons e l ih =>
    cases hstep : cloneObserverStep s t w e with
    | none =>
      rw [cloneFold_cons_none s t e l w hstep] at h
      exact absurd h (by simp)
    | some w₂ =>
      rw [cloneFold_cons_some s t e l w w₂ hstep] at h
      rw [ih w₂ h, cloneObserverStep_compObs_ne_target s t w w₂ e hstep k c x hx]

theorem cloneFold_entObs_establish (s t : Entity) (l : List Entity) (w w₁ : World)
    (h : cloneFold s t l w = some w₁) (O : Entity) (st : ObserverState)
    (hO : O ∈ l) (hstO : mget w.observer O = some st)
    (hcomps : st.descriptor.components = []) (k : Key) (m : ObserverSet)
    (hk : k ∈ st.descriptor.events) (hst : s ≠ t) (hs : entObs w k s = some m) :
    entObs w₁ k t = some m := by
  induction l generalizing w with
  | nil => exact absurd hO (by simp)
  | cons e l ih =>
    cases hstep : cloneObserverStep s t w e with
    | none =>
      rw [cloneFold_cons_none s t e l w hstep] at h
      exact absurd h (by simp)
    | some w₂ =>
      rw [cloneFold_cons_some s t e l w w₂ hstep] at h
      by_cases he : e = O
      · subst he
        have ht₂ := cloneObserverStep_entObs_establish s t w w₂ e st hstep hstO
          hcomps k m hk hst hs
        have hs₂ : entObs w₂ k s = some m := by
          rw [cloneObserverStep_entObs_ne_target s t w w₂ e hstep k s hst]
          exact hs
        exact (cloneFold_entObs_pair s t l w₂ w₁ h k m hst hs₂ ht₂).2
      · obtain ⟨_, _, _, st_e, hst_e, hobs⟩ :=
          cloneObserverStep_fields s t w w₂ e hstep
        have hO₂ : O ∈ l := by
          rcases List.mem_cons.mp hO with hh | hh
          · exact absurd hh.symm he
          · exact hh
        have hstO₂ : mget w₂.observer O = some st := by
          rw [hobs, mget_mput_ne _ _ _ _ (fun hh => he hh.symm)]
          exact hstO
        have hs₂ : entObs w₂ k s = some m := by
          rw [cloneObserverStep_entObs_ne_target s t w w₂ e hstep k s hst]
          exact hs
        exact ih w₂ h hO₂ hstO₂ hs₂

theorem cloneFold_compObs_establish (s t : Entity) (l : List Entity) (w w₁ : World)
    (h : cloneFold s t l w = some w₁) (O : Entity) (st : ObserverState)
    (hO : O ∈ l) (hstO : mget w.observer O = some st) (k c : Key)
    (m : ObserverSet) (hk : k ∈ st.descriptor.events)
    (hc : c ∈ st.descriptor.components) (hst : s ≠ t)
    (hs : compObs w k c s = some m) : compObs w₁ k c t = some m := by
  induction l generalizing w with
  | nil => exact absurd hO (by simp)
  | cons e l ih =>
    cases hstep : cloneObserverStep s t w e with
    | none =>
      rw [cloneFold_cons_none s t e l w hstep] at h
      exact absurd h (by simp)
    | some w₂ =>
      rw [cloneFold_cons_some s t e l w w₂ hstep] at h
      by_cases he : e = O
      · subst he
        have ht₂ := cloneObserverStep_compObs_establish s t w w₂ e st hstep hstO
          k c m hk hc hst hs
        have hs₂ : compObs w₂ k c s = some m := by
          rw [cloneObserverStep_compObs_ne_target s t w w₂ e hstep k c s hst]
          exact hs
        exact (cloneFold_compObs_pair s t l w₂ w₁ h k c m hst hs₂ ht₂).2
      · obtain ⟨_, _, _, st_e, hst_e, hobs⟩ :=
          cloneObserverStep_fields s t w w₂ e hstep
        have hO₂ : O ∈ l := by
          rcases List.mem_cons.mp hO with hh | hh
          · exact absurd hh.symm he
          · exact hh
        have hstO₂ : mget w₂.observer O = some st := by
          rw [hobs, mget_mput_ne _ _ _ _ (fun hh => he hh.symm)]
          exact hstO
        have hs₂ : compObs w₂ k c s = some m := by
          rw [cloneObserverStep_compObs_ne_target s t w w₂ e hstep k c s hst]
          exact hs
        exact ih w₂ h hO₂ hstO₂ hs₂

/-! ### Clone closure characterization -/

theorem componentClone_eq (w : World) (source target : Entity) (l : List Entity)
    (h : mget w.observed_by source = some l) :
    componentCloneObservedBy w source target =
      cloneFold source target l
        { w with observed_by := mput w.observed_by target l } := by
  unfold componentCloneObservedBy
  rw [h]

theorem componentClone_missing (w : World) (source target : Entity)
    (h : mget w.observed_by source = none) :
    componentCloneObservedBy w source target = none := by
  unfold componentCloneObservedBy
  rw [h]

/-! ### C3 — clone fidelity -/

/-- C3: cloning `source` to `target` with propagation copies the back-reference
list onto `target` as a value; each listed observer has `target` appended to
its watched entities with its despawn counter (and event/component sets)
unchanged; and for each of its event kinds (resp. each scoped component kind),
if the global index mapped `source` to an observer set, `target` is now mapped
to that same set. -/
theorem cloneFidelity (w w₁ : World) (source target : Entity) (l : List Entity)
    (hl : mget w.observed_by source = some l) (hnd : l.Nodup)
    (hst : source ≠ target)
    (h : componentCloneObservedBy w source target = some w₁) :
    mget w₁.observed_by target = some l ∧
    (∀ O ∈ l, ∀ st, mget w.observer O = some st →
      mget w₁.observer O = some { st with descriptor := { st.descriptor with
        entities := st.descriptor.entities ++ [target] } }) ∧
    (∀ O ∈ l, ∀ st, mget w.observer O = some st →
      st.descriptor.components = [] →
      ∀ k ∈ st.descriptor.events, ∀ m, entObs w k source = some m →
        entObs w₁ k target = some m) ∧
    (∀ O ∈ l, ∀ st, mget w.observer O = some st →
      ∀ k ∈ st.descriptor.events, ∀ c ∈ st.descriptor.components,
      ∀ m, compObs w k c source = some m → compObs w₁ k c target = some m) := by
  rw [componentClone_eq w source target l hl] at h
  refine ⟨?_, ?_, ?_, ?_⟩
  · obtain ⟨f₁, _, _⟩ := cloneFold_fields source target l _ w₁ h
    rw [f₁]
    exact mget_mput_self _ _ _
  · intro O hO st hstO
    have hchar : mget w₁.observer O = (mget w.observer O).map (fun st =>
        { st with descriptor := { st.descriptor with
            entities := st.descriptor.entities ++ List.replicate (l.count O) target } }) :=
      cloneFold_observer source target l _ w₁ h O
    rw [hchar, hstO, List.count_eq_one_of_mem hnd hO]
    rfl
  · intro O hO st hstO hcomps k hk m hm
    exact cloneFold_entObs_establish source target l _ w₁ h O st hO hstO hcomps
      k m hk hst hm
  · intro O hO st hstO k hk c hc m hm
    exact cloneFold_compObs_establish source target l _ w₁ h O st hO hstO
      k c m hk hc hst hm

/-- State of `exA` after cloning entity 1 onto entity 2 with observer
propagation. -/
def exAc : World :=
  { alive := [1, 2, 3],
    observed_by := [(1, [3]), (2, [3])],
    observer := [(3, { descriptor := { events := [5], components := [], entities := [1, 2] },
                       despawned_watched_entities := 0 })],
    observers := [(5, { entity_observers := [(1, [3]), (2, [3])], component_observers := [] })],
    commands := [] }

/-- C3 witness: the fidelity theorem at the concrete world `exA`, cloning
entity 1 onto entity 2. -/
theorem cloneFidelity_witness :
    mget exAc.observed_by 2 = some [3] ∧
    mget exAc.observer 3 = some
      { descriptor := { events := [5], components := [], entities := [1, 2] },
        despawned_watched_entities := 0 } ∧
    entObs exAc 5 2 = some [3] :=
  ⟨(cloneFidelity exA exAc 1 2 [3] (by decide) (by decide) (by decide)
      (by decide)).1,
   (cloneFidelity exA exAc 1 2 [3] (by decide) (by decide) (by decide)
      (by decide)).2.1 3 (by decide)
      { descriptor := { events := [5], components := [], entities := [1] },
        despawned_watched_entities := 0 } (by decide),
   (cloneFidelity exA exAc 1 2 [3] (by decide) (by decide) (by decide)
      (by decide)).2.2.1 3 (by decide)
      { descriptor := { events := [5], components := [], entities := [1] },
        despawned_watched_entities := 0 } (by decide) (by decide) 5 (by decide)
      [3] (by decide)⟩

/-! ### C8 — observer propagation is opt-in -/

/-- C8: `ObservedBy`'s own clone behavior is `Ignore`, and a clone pipeline
without the explicit opt-in (no override, or `add_observers(false)`) copies
nothing at all: the world is returned unchanged, so the target gains no
back-reference, no descriptor mentions it, and no index entry is added. -/
theorem cloneOptOutDefault :
    observedByCloneBehavior = CloneBehavior.ignoreComp ∧
    (∀ (w : World) (s t : Entity), clonePipeline none w s t = some w) ∧
    (∀ (ov : Option CloneBehavior) (w : World) (s t : Entity),
      clonePipeline (addObservers ov false) w s t = some w) :=
  ⟨rfl, fun _ _ _ => rfl, fun _ _ _ _ => rfl⟩

/-! ### C10 — propagation replaces the target's back-reference wholesale -/

/-- C10: when the clone target already has a back-reference of its own,
propagation overwrites it with a copy of the source's list instead of merging;
prior observers of the target that are not in the source's list disappear from
the target's back-reference. -/
theorem cloneReplacesTargetBackref (w w₁ : World) (source target : Entity)
    (l old : List Entity) (hl : mget w.observed_by source = some l)
    (_hold : mget w.observed_by target = some old)
    (h : componentCloneObservedBy w source target = some w₁) :
    mget w₁.observed_by target = some l ∧
    ∀ P ∈ old, P ∉ l → observedByHasB w₁ target P = false := by
  rw [componentClone_eq w source target l hl] at h
  obtain ⟨f₁, _, _⟩ := cloneFold_fields source target l _ w₁ h
  have h1 : mget w₁.observed_by target = some l := by
    rw [f₁]
    exact mget_mput_self _ _ _
  refine ⟨h1, ?_⟩
  intro P hP hPl
  unfold observedByHasB
  rw [h1]
  simpa using hPl

/-- Example world: entity 1 watched by observer 3, entity 2 watched by its own
observer 4. -/
def exC10 : World :=
  { alive := [1, 2, 3, 4],
    observed_by := [(1, [3]), (2, [4])],
    observer := [(3, { descriptor := { events := [5], components := [], entities := [1] },
                       despawned_watched_entities := 0 }),
                 (4, { descriptor := { events := [5], components := [], entities := [2] },
                       despawned_watched_entities := 0 })],
    observers := [],
    commands := [] }

/-- State of `exC10` after cloning entity 1 onto entity 2 with propagation. -/
def exC10r : World :=
  { alive := [1, 2, 3, 4],
    observed_by := [(1, [3]), (2, [3])],
    observer := [(3, { descriptor := { events := [5], components := [], entities := [1, 2] },
                       despawned_watched_entities := 0 }),
                 (4, { descriptor := { events := [5], components := [], entities := [2] },
                       despawned_watched_entities := 0 })],
    observers := [(5, { entity_observers := [], component_observers := [] })],
    commands := [] }

/-- C10 witness: cloning entity 1 onto entity 2 in `exC10` replaces entity 2's
back-reference `[4]` with `[3]`; its prior observer 4 is dropped. -/
theorem cloneReplacesTargetBackref_witness :
    mget exC10r.observed_by 2 = some [3] ∧
    observedByHasB exC10r 2 4 = false :=
  ⟨(cloneReplacesTargetBackref exC10 exC10r 1 2 [3] [4] (by decide) (by decide)
      (by decide)).1,
   (cloneReplacesTargetBackref exC10 exC10r 1 2 [3] [4] (by decide) (by decide)
      (by decide)).2 4 (by decide) (by decide)⟩

/-! ### C4 — what is fatal and what is skipped -/

/-- Example world: entity 1's back-reference names entity 2, which is alive
but carries no `Observer` component. -/
def exSkip : World :=
  { alive := [1, 2],
    observed_by := [(1, [2])],
    observer := [],
    observers := [],
    commands := [] }

/-- C4 counterexample: entity 2 is alive, listed in entity 1's back-reference,
and has no `Observer` component; the claim says the despawn-cascade must then
fail loudly, but the hook succeeds, silently skipping the entry. -/
theorem cascadeMissingDescriptorNotFatal :
    2 ∈ exSkip.alive ∧ observedByHasB exSkip 1 2 = true ∧
    mget exSkip.observer 2 = none ∧
    (observedByOnRemove exSkip 1).isSome = true := by decide

/-- C4 amended: the clone-propagation fails loudly (`expect` panic, modelled
as `none`) on a missing source back-reference or a missing `Observer` of any
listed observer; the despawn-cascade fails loudly only on a missing
back-reference of the removed entity itself (`unwrap`), while a live listed
observer without an `Observer` component is skipped silently, exactly like
the benign dead-observer race. -/
theorem fatalConsistencyPolicy :
    (∀ (w : World) (s t : Entity), mget w.observed_by s = none →
      componentCloneObservedBy w s t = none) ∧
    (∀ (w : World) (s t : Entity) (l : List Entity) (o : Entity),
      mget w.observed_by s = some l → o ∈ l → mget w.observer o = none →
      componentCloneObservedBy w s t = none) ∧
    (∀ (w : World) (E : Entity), mget w.observed_by E = none →
      observedByOnRemove w E = none) ∧
    (∀ (w : World) (e : Entity), e ∈ w.alive → mget w.observer e = none →
      onRemoveStep w e = w) := by
  refine ⟨?_, ?_, ?_, ?_⟩
  · intro w s t h
    exact componentClone_missing w s t h
  · intro w s t l o hl ho hobs
    rw [componentClone_eq w s t l hl]
    exact cloneFold_missing s t l _ o ho hobs
  · intro w E h
    exact observedByOnRemove_absent w E h
  · intro w e _ h
    exact onRemoveStep_noObserver w e h

/-- C4 witness: the amended policy at concrete worlds — the clone closure
panics on a missing source back-reference and on a listed observer without an
`Observer` component; the hook panics on a missing back-reference and skips a
live observer without an `Observer` component. -/
theorem fatalConsistencyPolicy_witness :
    componentCloneObservedBy exDead 5 6 = none ∧
    componentCloneObservedBy exSkip 1 3 = none ∧
    observedByOnRemove exDead 5 = none ∧
    onRemoveStep exSkip 2 = exSkip :=
  ⟨fatalConsistencyPolicy.1 exDead 5 6 (by decide),
   fatalConsistencyPolicy.2.1 exSkip 1 3 [2] 2 (by decide) (by decide) (by decide),
   fatalConsistencyPolicy.2.2.1 exDead 5 (by decide),
   fatalConsistencyPolicy.2.2.2 exSkip 2 (by decide) (by decide)⟩

/-! ### Full despawn characterization -/

theorem despawnEntity_eq (w : World) (E : Entity) (l : List Entity)
    (hl : mget w.observed_by E = some l) :
    despawnEntity w E = some (removeEntityRaw
      (l.foldl onRemoveStep { w with observed_by := mput w.observed_by E [] }) E) := by
  unfold despawnEntity
  rw [observedByOnRemove_eq w E l hl]
  simp only [hl]
  rfl

theorem mem_alive_removeEntityRaw (w : World) (e x : Entity) :
    x ∈ (removeEntityRaw w e).alive ↔ x ∈ w.alive ∧ x ≠ e := by
  simp [removeEntityRaw, List.mem_filter]

theorem despawnEntity_step (w : World) (E O : Entity) (l : List Entity)
    (hl : mget w.observed_by E = some l) (hcnt : l.count O = 1)
    (halive : O ∈ w.alive) (hOE : O ≠ E)
    (st : ObserverState) (hstO : mget w.observer O = some st) :
    ∃ w₂, despawnEntity w E = some w₂ ∧
      mget w₂.observer O = some { st with despawned_watched_entities :=
        st.despawned_watched_entities + 1 } ∧
      w₂.commands.count O = w.commands.count O +
        (if st.descriptor.entities.length = st.despawned_watched_entities + 1
          then 1 else 0) ∧
      (∀ x, x ∈ w₂.alive ↔ x ∈ w.alive ∧ x ≠ E) ∧
      (∀ x, x ≠ E → mget w₂.observed_by x = mget w.observed_by x) := by
  obtain ⟨g₁, g₂⟩ := foldOnRemove_count_one l
    { w with observed_by := mput w.observed_by E [] } O st halive hstO hcnt
  refine ⟨_, despawnEntity_eq w E l hl, ?_, ?_, ?_, ?_⟩
  · show mget (mdel (l.foldl onRemoveStep _).observer E) O = _
    rw [mget_mdel, if_neg hOE, g₁]
  · show (l.foldl onRemoveStep _).commands.count O = _
    exact g₂
  · intro x
    rw [mem_alive_removeEntityRaw, foldOnRemove_alive]
  · intro x hx
    show mget (mdel (l.foldl onRemoveStep _).observed_by E) x = _
    rw [mget_mdel, if_neg hx, foldOnRemove_observed_by, mget_mput_ne _ _ _ _ hx]

/-! ### C6 — clone independence -/

/-- C6: after propagating observers from `source` to `target`, the source's
own records are untouched snapshots (its back-reference and its index entries
are unchanged), and an observer `O` of the source — which now also watches the
live clone — is not despawned by removing `source` alone, nor by removing
`target` alone: no despawn command for `O` is enqueued by either removal. -/
theorem cloneIndependence (w w₁ : World) (source target O : Entity)
    (l : List Entity) (st : ObserverState)
    (hl : mget w.observed_by source = some l) (hcnt : l.count O = 1)
    (hst : source ≠ target) (hOs : O ≠ source) (hOt : O ≠ target)
    (halive : O ∈ w.alive) (hstO : mget w.observer O = some st)
    (hlen : st.despawned_watched_entities ≠ st.descriptor.entities.length)
    (hcmd : w.commands.count O = 0)
    (h : componentCloneObservedBy w source target = some w₁) :
    mget w₁.observed_by source = some l ∧
    (∀ k, entObs w₁ k source = entObs w k source) ∧
    (∀ k c, compObs w₁ k c source = compObs w k c source) ∧
    (∀ w₂, despawnEntity w₁ source = some w₂ → w₂.commands.count O = 0) ∧
    (∀ w₂, despawnEntity w₁ target = some w₂ → w₂.commands.count O = 0) := by
  rw [componentClone_eq w source target l hl] at h
  obtain ⟨f₁, f₂, f₃⟩ := cloneFold_fields source target l _ w₁ h
  have hbs : mget w₁.observed_by source = some l := by
    rw [f₁, mget_mput_ne _ _ _ _ hst]
    exact hl
  have hbt : mget w₁.observed_by target = some l := by
    rw [f₁]
    exact mget_mput_self _ _ _
  have hal : O ∈ w₁.alive := by
    rw [f₂]
    exact halive
  have hst₁ : mget w₁.observer O = some
      { st with descriptor := { st.descriptor with
          entities := st.descriptor.entities ++ [target] } } := by
    have hchar : mget w₁.observer O = (mget w.observer O).map (fun st =>
        { st with descriptor := { st.descriptor with
            entities := st.descriptor.entities ++ List.replicate (l.count O) target } }) :=
      cloneFold_observer source target l _ w₁ h O
    rw [hchar, hstO, hcnt]
    rfl
  have hcmd₁ : w₁.commands.count O = 0 := by
    rw [f₃]
    exact hcmd
  have hite : (if (st.descriptor.entities ++ [target]).length =
      st.despawned_watched_entities + 1 then 1 else 0) = 0 := by
    rw [if_neg]
    intro hcontra
    rw [List.length_append] at hcontra
    simp at hcontra
    omega
  refine ⟨hbs, ?_, ?_, ?_, ?_⟩
  · intro k
    exact cloneFold_entObs_ne_target source target l _ w₁ h k source hst
  · intro k c
    exact cloneFold_compObs_ne_target source target l _ w₁ h k c source hst
  · intro w₂ hd
    obtain ⟨w₃, hd₃, _, hcount, _, _⟩ :=
      despawnEntity_step w₁ source O l hbs hcnt hal hOs _ hst₁
    rw [hd] at hd₃
    injection hd₃ with hw
    subst hw
    rw [hcount, hcmd₁, hite]
  · intro w₂ hd
    obtain ⟨w₃, hd₃, _, hcount, _, _⟩ :=
      despawnEntity_step w₁ target O l hbt hcnt hal hOt _ hst₁
    rw [hd] at hd₃
    injection hd₃ with hw
    subst hw
    rw [hcount, hcmd₁, hite]

/-- State of `exAc` after despawning the original watched entity 1. -/
def exAcr1 : World :=
  { alive := [2, 3],
    observed_by := [(2, [3])],
    observer := [(3, { descriptor := { events := [5], components := [], entities := [1, 2] },
                       despawned_watched_entities := 1 })],
    observers := [(5, { entity_observers := [(1, [3]), (2, [3])], component_observers := [] })],
    commands := [] }

/-- State of `exAc` after despawning the clone, entity 2. -/
def exAcr2 : World :=
  { alive := [1, 3],
    observed_by := [(1, [3])],
    observer := [(3, { descriptor := { events := [5], components := [], entities := [1, 2] },
                       despawned_watched_entities := 1 })],
    observers := [(5, { entity_observers := [(1, [3]), (2, [3])], component_observers := [] })],
    commands := [] }

/-- C6 witness: in the cloned world `exAc`, observer 3 watches both entity 1
and its clone 2; removing either one alone enqueues no despawn of observer 3,
and the clone left entity 1's records untouched. -/
theorem cloneIndependence_witness :
    mget exAc.observed_by 1 = some [3] ∧
    entObs exAc 5 1 = entObs exA 5 1 ∧
    exAcr1.commands.count 3 = 0 ∧
    exAcr2.commands.count 3 = 0 :=
  ⟨(cloneIndependence exA exAc 1 2 3 [3]
      { descriptor := { events := [5], components := [], entities := [1] },
        despawned_watched_entities := 0 }
      (by decide) (by decide) (by decide) (by decide) (by decide) (by decide)
      (by decide) (by decide) (by decide) (by decide)).1,
   (cloneIndependence exA exAc 1 2 3 [3]
      { descriptor := { events := [5], components := [], entities := [1] },
        despawned_watched_entities := 0 }
      (by decide) (by decide) (by decide) (by decide) (by decide) (by decide)
      (by decide) (by decide) (by decide) (by decide)).2.1 5,
   (cloneIndependence exA exAc 1 2 3 [3]
      { descriptor := { events := [5], components := [], entities := [1] },
        despawned_watched_entities := 0 }
      (by decide) (by decide) (by decide) (by decide) (by decide) (by decide)
      (by decide) (by decide) (by decide) (by decide)).2.2.2.1 exAcr1 (by decide),
   (cloneIndependence exA exAc 1 2 3 [3]
      { descriptor := { events := [5], components := [], entities := [1] },
        despawned_watched_entities := 0 }
      (by decide) (by decide) (by decide) (by decide) (by decide) (by decide)
      (by decide) (by decide) (by decide) (by decide)).2.2.2.2 exAcr2 (by decide)⟩

/-! ### C1 — the bidirectional invariant -/

theorem observedByHasB_congr (w w₁ : World) (E O : Entity)
    (h : mget w₁.observed_by E = mget w.observed_by E) :
    observedByHasB w₁ E O = observedByHasB w E O := by
  unfold observedByHasB
  rw [h]

theorem watchesB_congr (w w₁ : World) (O E : Entity)
    (h : (mget w₁.observer O).map (fun st => st.descriptor)
        = (mget w.observer O).map (fun st => st.descriptor)) :
    watchesB w₁ O E = watchesB w O E := by
  unfold watchesB
  cases h₁ : mget w₁.observer O with
  | none =>
    rw [h₁] at h
    cases h₂ : mget w.observer O with
    | none => rfl
    | some st => rw [h₂] at h; simp at h
  | some st₁ =>
    rw [h₁] at h
    cases h₂ : mget w.observer O with
    | none => rw [h₂] at h; simp at h
    | some st =>
      rw [h₂] at h
      simp at h
      show st₁.descriptor.entities.contains E = st.descriptor.entities.contains E
      rw [h]

theorem bidir_despawnEntity (w w₂ : World) (E : Entity) (hB : Bidir w)
    (h : despawnEntity w E = some w₂) : Bidir w₂ := by
  cases hl : mget w.observed_by E with
  | none =>
    unfold despawnEntity at h
    rw [hl] at h
    simp only [Option.some.injEq] at h
    subst h
    intro x hx o ho
    have hx₁ := (mem_alive_removeEntityRaw w E x).mp hx
    have ho₁ := (mem_alive_removeEntityRaw w E o).mp ho
    have hob : observedByHasB (removeEntityRaw w E) x o = observedByHasB w x o := by
      apply observedByHasB_congr
      show mget (mdel w.observed_by E) x = _
      rw [mget_mdel, if_neg hx₁.2]
    have hwa : watchesB (removeEntityRaw w E) o x = watchesB w o x := by
      apply watchesB_congr
      show (mget (mdel w.observer E) o).map _ = _
      rw [mget_mdel, if_neg ho₁.2]
    rw [hob, hwa]
    exact hB x hx₁.1 o ho₁.1
  | some l =>
    rw [despawnEntity_eq w E l hl] at h
    simp only [Option.some.injEq] at h
    subst h
    intro x hx o ho
    set wh := l.foldl onRemoveStep { w with observed_by := mput w.observed_by E [] }
      with hwh
    have hxa : x ∈ w.alive ∧ x ≠ E := by
      have := (mem_alive_removeEntityRaw wh E x).mp hx
      rwa [hwh, foldOnRemove_alive] at this
    have hoa : o ∈ w.alive ∧ o ≠ E := by
      have := (mem_alive_removeEntityRaw wh E o).mp ho
      rwa [hwh, foldOnRemove_alive] at this
    have hob : observedByHasB (removeEntityRaw wh E) x o = observedByHasB w x o := by
      apply observedByHasB_congr
      show mget (mdel wh.observed_by E) x = _
      rw [mget_mdel, if_neg hxa.2, hwh, foldOnRemove_observed_by,
        mget_mput_ne _ _ _ _ hxa.2]
    have hwa : watchesB (removeEntityRaw wh E) o x = watchesB w o x := by
      apply watchesB_congr
      show (mget (mdel wh.observer E) o).map _ = _
      rw [mget_mdel, if_neg hoa.2, hwh, foldOnRemove_desc]
    rw [hob, hwa]
    exact hB x hxa.1 o hoa.1

theorem bidir_clone (w w₁ : World) (source target : Entity) (hB : Bidir w)
    (hst : source ≠ target)
    (hfresh : ∀ O ∈ w.alive, watchesB w O target = false)
    (h : componentCloneObservedBy w source target = some w₁) : Bidir w₁ := by
  cases hl : mget w.observed_by source with
  | none => rw [componentClone_missing w source target hl] at h; exact absurd h (by simp)
  | some l =>
    rw [componentClone_eq w source target l hl] at h
    obtain ⟨f₁, f₂, _⟩ := cloneFold_fields source target l _ w₁ h
    intro x hx o ho
    rw [f₂] at hx ho
    have hchar : mget w₁.observer o = (mget w.observer o).map (fun st =>
        { st with descriptor := { st.descriptor with
            entities := st.descriptor.entities ++ List.replicate (l.count o) target } }) :=
      cloneFold_observer source target l _ w₁ h o
    by_cases hxt : x = target
    · subst hxt
      have hobt : observedByHasB w₁ x o = l.contains o := by
        unfold observedByHasB
        rw [f₁, mget_mput_self]
      rw [hobt]
      cases hco : mget w.observer o with
      | none =>
        have hno : o ∉ l := by
          intro hmem
          rw [cloneFold_missing source x l
            { w with observed_by := mput w.observed_by x l } o hmem hco] at h
          exact absurd h (by simp)
        unfold watchesB
        rw [hchar, hco]
        simpa using hno
      | some sto =>
        unfold watchesB
        rw [hchar, hco]
        by_cases hol : o ∈ l
        · have hn : l.count o ≠ 0 := by
            rw [Ne, List.count_eq_zero]
            exact fun hc => hc hol
          simp [List.elem_eq_mem, List.mem_append, List.mem_replicate, hn, hol]
        · have hn : l.count o = 0 := List.count_eq_zero.mpr hol
          rw [hn]
          have hw : watchesB w o x = false := hfresh o ho
          unfold watchesB at hw
          rw [hco] at hw
          simpa [hol] using hw
    · have hob : observedByHasB w₁ x o = observedByHasB w x o := by
        apply observedByHasB_congr
        rw [f₁, mget_mput_ne _ _ _ _ hxt]
      have hwa : watchesB w₁ o x = watchesB w o x := by
        unfold watchesB
        rw [hchar]
        cases hco : mget w.observer o with
        | none => rfl
        | some sto =>
          simp only [Option.map_some]
          simp [List.elem_eq_mem, List.mem_append, List.mem_replicate, hxt]
      rw [hob, hwa]
      exact hB x hx o ho

/-- Example world satisfying the bidirectional invariant in which the clone
target (entity 3) already has an observer of its own (entity 4), while entity
1 is watched by observer 2. -/
def exC1 : World :=
  { alive := [1, 2, 3, 4],
    observed_by := [(1, [2]), (3, [4])],
    observer := [(2, { descriptor := { events := [5], components := [], entities := [1] },
                       despawned_watched_entities := 0 }),
                 (4, { descriptor := { events := [5], components := [], entities := [3] },
                       despawned_watched_entities := 0 })],
    observers := [],
    commands := [] }

/-- State of `exC1` after cloning entity 1 onto entity 3 with propagation:
entity 3's back-reference was overwritten with `[2]`, yet observer 4 still
lists entity 3 in its descriptor — the invariant is now one-sided. -/
def exC1r : World :=
  { alive := [1, 2, 3, 4],
    observed_by := [(1, [2]), (3, [2])],
    observer := [(2, { descriptor := { events := [5], components := [], entities := [1, 3] },
                       despawned_watched_entities := 0 }),
                 (4, { descriptor := { events := [5], components := [], entities := [3] },
                       despawned_watched_entities := 0 })],
    observers := [(5, { entity_observers := [], component_observers := [] })],
    commands := [] }

/-- C1 counterexample: `exC1` satisfies the bidirectional invariant, the
clone-propagation from entity 1 onto entity 3 succeeds, and the resulting
world violates the invariant (observer 4 lists entity 3, but entity 3's
back-reference no longer lists observer 4) — so the invariant is not preserved
by clone-propagation from every state satisfying it. -/
theorem bidirNotPreservedByClone :
    Bidir exC1 ∧ componentCloneObservedBy exC1 1 3 = some exC1r ∧
    ¬ Bidir exC1r := by decide

/-- C1 amended: among live entities, membership of O in E's back-reference is
equivalent to membership of E in O's descriptor. The despawn-cascade preserves
this equivalence from any state satisfying it; the clone-propagation preserves
it provided no live observer already watches the clone target (a fresh
target), the overwrite of an already-watched target being the one exception
(see the counterexample). -/
theorem bidirInvariantPreservation :
    (∀ (w w₂ : World) (E : Entity), Bidir w → despawnEntity w E = some w₂ →
      Bidir w₂) ∧
    (∀ (w w₁ : World) (source target : Entity), Bidir w → source ≠ target →
      (∀ O ∈ w.alive, watchesB w O target = false) →
      componentCloneObservedBy w source target = some w₁ → Bidir w₁) :=
  ⟨fun w w₂ E hB h => bidir_despawnEntity w w₂ E hB h,
   fun w w₁ s t hB hst hfresh h => bidir_clone w w₁ s t hB hst hfresh h⟩

/-- State of `exA` after the full despawn of watched entity 1. -/
def exAd : World :=
  { alive := [2, 3],
    observed_by := [],
    observer := [(3, { descriptor := { events := [5], components := [], entities := [1] },
                       despawned_watched_entities := 1 })],
    observers := [(5, { entity_observers := [(1, [3])], component_observers := [] })],
    commands := [3] }

/-- C1 witness: the preservation theorem applied to `exA` — despawning watched
entity 1, and cloning entity 1 onto the fresh entity 2. -/
theorem bidirInvariantPreservation_witness :
    Bidir exAd ∧ Bidir exAc :=
  ⟨bidirInvariantPreservation.1 exA exAd 1 (by decide) (by decide),
   bidirInvariantPreservation.2 exA exAc 1 2 (by decide) (by decide)
     (by decide) (by decide)⟩

/-! ### C2 — cascade completeness -/

theorem removeAll_cons_some (w w₂ : World) (s : Entity) (rem : List Entity)
    (h : despawnEntity w s = some w₂) :
    removeAll w (s :: rem) = removeAll w₂ rem := by
  unfold removeAll
  rw [List.foldl_cons]
  have hinit : ((some w).bind fun w₁ => despawnEntity w₁ s) = despawnEntity w s :=
    rfl
  rw [hinit, h]

/-- Invariant threaded through a removal sequence: `O`'s descriptor still
lists exactly `ents` with `despawnedWatched` equal to the number of subjects
already removed; every remaining subject in `rem` is alive with a
back-reference naming `O` exactly once; and a despawn of `O` sits on the
queue exactly when nothing remains. -/
def C2Inv (O : Entity) (ents : List Entity) (rem : List Entity) (w : World) :
    Prop :=
  O ∈ w.alive ∧
  (∃ st, mget w.observer O = some st ∧ st.descriptor.entities = ents ∧
    st.despawned_watched_entities = ents.length - rem.length) ∧
  rem.length ≤ ents.length ∧
  rem.Nodup ∧
  O ∉ rem ∧
  (∀ s ∈ rem, s ∈ w.alive ∧
    ∃ bl, mget w.observed_by s = some bl ∧ bl.count O = 1) ∧
  w.commands.count O = (if rem = [] then 1 else 0)

theorem c2_step (O : Entity) (ents : List Entity) (s : Entity)
    (rem : List Entity) (w : World) (hinv : C2Inv O ents (s :: rem) w) :
    ∃ w₂, despawnEntity w s = some w₂ ∧ C2Inv O ents rem w₂ := by
  obtain ⟨halive, ⟨st, hstO, hents, hk⟩, hlen, hnd, hOnot, hsub, hcmd⟩ := hinv
  obtain ⟨hsalive, bl, hbl, hblc⟩ := hsub s (List.mem_cons_self s rem)
  have hOs : O ≠ s := fun hh => hOnot (hh ▸ List.mem_cons_self s rem)
  obtain ⟨w₂, hd, hobs, hcount, halive₂, hob₂⟩ :=
    despawnEntity_step w s O bl hbl hblc halive hOs st hstO
  have hlc : (s :: rem).length = rem.length + 1 := rfl
  rw [hlc] at hlen hk
  have hsnotrem : s ∉ rem := (List.nodup_cons.mp hnd).1
  refine ⟨w₂, hd, ?_, ⟨_, hobs, hents, ?_⟩, by omega, (List.nodup_cons.mp hnd).2,
    fun hh => hOnot (List.mem_cons.mpr (Or.inr hh)), ?_, ?_⟩
  · exact (halive₂ O).mpr ⟨halive, hOs⟩
  · show st.despawned_watched_entities + 1 = ents.length - rem.length
    omega
  · intro s₁ hs₁
    have hne : s₁ ≠ s := fun hh => hsnotrem (hh ▸ hs₁)
    obtain ⟨ha, bl₁, hbl₁, hc₁⟩ := hsub s₁ (List.mem_cons.mpr (Or.inr hs₁))
    exact ⟨(halive₂ s₁).mpr ⟨ha, hne⟩, bl₁, by rw [hob₂ s₁ hne]; exact hbl₁, hc₁⟩
  · rw [hcount, hcmd, if_neg (List.cons_ne_nil s rem), hents]
    by_cases hrem : rem = []
    · subst hrem
      rw [if_pos rfl, if_pos (by simp at hk ⊢; omega)]
    · have hrl : rem.length ≠ 0 := fun hh => hrem (List.length_eq_zero.mp hh)
      rw [if_neg hrem, if_neg (by omega)]

theorem c2_run (O : Entity) (ents rem : List Entity) (w : World)
    (hinv : C2Inv O ents rem w) :
    ∃ w₁, removeAll w rem = some w₁ ∧ C2Inv O ents [] w₁ := by
  induction rem generalizing w with
  | nil => exact ⟨w, rfl, hinv⟩
  | cons s rem ih =>
    obtain ⟨w₂, hd, hinv₂⟩ := c2_step O ents s rem w hinv
    obtain ⟨w₁, hr, hinv₁⟩ := ih w₂ hinv₂
    exact ⟨w₁, by rw [removeAll_cons_some w w₂ s rem hd]; exact hr, hinv₁⟩

theorem c2_runSplit (O : Entity) (ents pre suf : List Entity) (w : World)
    (hinv : C2Inv O ents (pre ++ suf) w) :
    ∃ w₁, removeAll w pre = some w₁ ∧ C2Inv O ents suf w₁ := by
  induction pre generalizing w with
  | nil => exact ⟨w, rfl, hinv⟩
  | cons s pre ih =>
    obtain ⟨w₂, hd, hinv₂⟩ := c2_step O ents s (pre ++ suf) w hinv
    obtain ⟨w₁, hr, hinv₁⟩ := ih w₂ hinv₂
    exact ⟨w₁, by rw [removeAll_cons_some w w₂ s pre hd]; exact hr, hinv₁⟩

/-- C2: an observer `O` watching the nonempty subject list `ents` (counter
starting at zero, each subject alive and back-referencing `O` exactly once)
gains one counter increment per removal; a despawn of `O` is enqueued on the
command queue — never executed inline — exactly at the removal that empties
the subject list. Removing all subjects in any order enqueues exactly one
despawn of `O`, and after any strict prefix of the removals no despawn of `O`
has been enqueued. -/
theorem cascadeCompleteness (w : World) (O : Entity) (st : ObserverState)
    (order : List Entity)
    (hstO : mget w.observer O = some st)
    (hc0 : st.despawned_watched_entities = 0)
    (hnil : st.descriptor.entities ≠ [])
    (hnd : st.descriptor.entities.Nodup)
    (hperm : order.Perm st.descriptor.entities)
    (hOnotin : O ∉ st.descriptor.entities)
    (halive : O ∈ w.alive)
    (hsub : ∀ s ∈ st.descriptor.entities, s ∈ w.alive ∧
      ∃ bl, mget w.observed_by s = some bl ∧ bl.count O = 1)
    (hcmd : w.commands.count O = 0) :
    (∃ w₁, removeAll w order = some w₁ ∧ w₁.commands.count O = 1) ∧
    (∀ pre suf, order = pre ++ suf → suf ≠ [] →
      ∃ w₁, removeAll w pre = some w₁ ∧ w₁.commands.count O = 0) := by
  have hlen : order.length = st.descriptor.entities.length := hperm.length_eq
  have hone : order ≠ [] := by
    intro hh
    apply hnil
    rw [hh] at hlen
    exact List.length_eq_zero.mp hlen.symm
  have hinv : C2Inv O st.descriptor.entities order w := by
    refine ⟨halive, ⟨st, hstO, rfl, by rw [hlen]; omega⟩, by rw [hlen],
      hperm.nodup_iff.mpr hnd, fun hh => hOnotin (hperm.subset hh),
      fun s hs => hsub s (hperm.subset hs), by rw [if_neg hone]; exact hcmd⟩
  constructor
  · obtain ⟨w₁, hr, hinv₁⟩ := c2_run O _ order w hinv
    refine ⟨w₁, hr, ?_⟩
    have hfin := hinv₁.2.2.2.2.2.2
    rwa [if_pos rfl] at hfin
  · intro pre suf heq hsuf
    subst heq
    obtain ⟨w₁, hr, hinv₁⟩ := c2_runSplit O _ pre suf w hinv
    refine ⟨w₁, hr, ?_⟩
    have hfin := hinv₁.2.2.2.2.2.2
    rwa [if_neg hsuf] at hfin

/-- Example world: observer 9 watches entities 1 and 2 (event kind 5). -/
def exC2 : World :=
  { alive := [1, 2, 9],
    observed_by := [(1, [9]), (2, [9])],
    observer := [(9, { descriptor := { events := [5], components := [], entities := [1, 2] },
                       despawned_watched_entities := 0 })],
    observers := [],
    commands := [] }

/-- C2 witness: removing both subjects of observer 9 (in the order 2 then 1)
enqueues exactly one despawn of 9, and after removing only entity 2 nothing
is enqueued. -/
theorem cascadeCompleteness_witness :
    (∃ w₁, removeAll exC2 [2, 1] = some w₁ ∧ w₁.commands.count 9 = 1) ∧
    (∃ w₁, removeAll exC2 [2] = some w₁ ∧ w₁.commands.count 9 = 0) :=
  ⟨(cascadeCompleteness exC2 9
      { descriptor := { events := [5], components := [], entities := [1, 2] },
        despawned_watched_entities := 0 } [2, 1]
      (by decide) (by decide) (by decide) (by decide) (by decide) (by decide)
      (by decide) (by decide) (by decide)).1,
   (cascadeCompleteness exC2 9
      { descriptor := { events := [5], components := [], entities := [1, 2] },
        despawned_watched_entities := 0 } [2, 1]
      (by decide) (by decide) (by decide) (by decide) (by decide) (by decide)
      (by decide) (by decide) (by decide)).2 [2] [1] rfl (by decide)⟩

end BevyObserver
